import Mathlib

/-!
Verification of the jlc-tester pipeline (helper.py / jlcimporter.py).

File contents are modelled as lists of characters (`Str`); file states as
`Option Str` (`none` = the file does not exist).  Fallible operations that can
raise an uncaught Python exception (`IndexError`) return `Except Unit`.
All definitions are direct translations of the Python source.
-/

namespace JlcTester

/-- File/string contents, modelled as a list of characters. -/
abbrev Str := List Char

/-- Coerce a Lean string literal to the `Str` model. -/
def str (s : String) : Str := s.data

/-- Python `str.strip()` whitespace set (ASCII fragment). -/
def isPySpace (c : Char) : Bool :=
  c = ' ' || c = '\t' || c = '\n' || c = '\r' || c = '\x0b' || c = '\x0c'

/-- Python `str.lstrip()`. -/
def pyLStrip (s : Str) : Str := s.dropWhile isPySpace

/-- Python `str.rstrip()`. -/
def pyRStrip (s : Str) : Str := (s.reverse.dropWhile isPySpace).reverse

/-- Python `str.strip()`. -/
def pyStrip (s : Str) : Str := pyRStrip (pyLStrip s)

/-- Python `file.readlines()`: split a string into lines, each line keeping its
trailing newline; a final fragment without a newline is kept as a last line. -/
def splitLines : Str → List Str
  | [] => []
  | c :: cs =>
    if c = '\n' then ['\n'] :: splitLines cs
    else
      match splitLines cs with
      | [] => [[c]]
      | l :: ls => (c :: l) :: ls

/-- Python `str.split(sep)` for a one-character separator. -/
def splitOnChar (sep : Char) : Str → List Str
  | [] => [[]]
  | c :: cs =>
    if c = sep then [] :: splitOnChar sep cs
    else
      match splitOnChar sep cs with
      | [] => [[c]]
      | p :: ps => (c :: p) :: ps

/-- Python `needle in hay` substring test. -/
def strContains (needle : Str) : Str → Bool
  | [] => needle.isEmpty
  | c :: t => needle.isPrefixOf (c :: t) || strContains needle t

/-- `^C\d{1,8}$` without the trailing-newline quirk of Python `$`. -/
def reMatchCore (s : Str) : Bool :=
  match s with
  | [] => false
  | c :: ds => c = 'C' && !ds.isEmpty && ds.length ≤ 8 && ds.all Char.isDigit

/-- Python `re.match(r'^C\d{1,8}$', s)`: `$` also matches just before a final
newline. -/
def reMatchPart (s : Str) : Bool :=
  reMatchCore s ||
    (match s.getLast? with
     | some '\n' => reMatchCore s.dropLast
     | _ => false)

/-- `validate_part_numbers` (helper.py:43-57 / jlcimporter.py:40-50) on a list
of raw strings: trim each element, keep the trimmed strings matching the
pattern. -/
def validate_part_numbers (part_numbers : List Str) : List Str :=
  let trimmed := part_numbers.map pyStrip
  trimmed.filter reMatchPart

/-- `validate_part_numbers` on either a single string or a list (the
`isinstance(part_numbers, str)` normalization). -/
def validate_part_numbers_input : Str ⊕ List Str → List Str
  | .inl s => validate_part_numbers [s]
  | .inr l => validate_part_numbers l

instance {ε α : Type} [DecidableEq ε] [DecidableEq α] : DecidableEq (Except ε α) :=
  fun a b =>
    match a, b with
    | .ok x, .ok y =>
      if h : x = y then isTrue (by rw [h]) else isFalse (by simp [h])
    | .error x, .error y =>
      if h : x = y then isTrue (by rw [h]) else isFalse (by simp [h])
    | .ok _, .error _ => isFalse (by simp)
    | .error _, .ok _ => isFalse (by simp)

/-! ## Library table mergers -/

/-- The entry marker searched for in table lines. -/
def entryMarker : Str := str "(lib (name"

/-- `"  (version 7)\n"`. -/
def versionLine : Str := str "  (version 7)\n"

/-- `")\n"`, the closing delimiter line appended by the mergers. -/
def closeLine : Str := str ")\n"

/-- `"(fp_lib_table\n"`. -/
def fpOpenLine : Str := str "(fp_lib_table\n"

/-- `"(sym_lib_table\n"`. -/
def symOpenLine : Str := str "(sym_lib_table\n"

/-- Which of the two tables `update_kicad_lib_table` is updating. -/
inductive LibType | sym | fp
deriving DecidableEq

/-- The table file a `LibType` names (`symbol.kicad_sym` / `footprint.kicad_mod`). -/
def LibType.fileName : LibType → Str
  | .sym => str "symbol.kicad_sym"
  | .fp => str "footprint.kicad_mod"

/-- `f"({lib_type}_lib_table\n"` (jlcimporter.py:153). -/
def LibType.openLine : LibType → Str
  | .sym => symOpenLine
  | .fp => fpOpenLine

/-- The part of an entry line after the quoted name (everything from `")` up to
the final `)` before the newline), for a given uri directory `m` and table
file name `t`. -/
def entryAfterName (m t n : Str) : Str :=
  str ")(type \"KiCad\")(uri \"${KIPRJMOD}/" ++ m ++ '/' :: n ++ '/' :: t
    ++ str "\")(options \"\")(descr \"\")" ++ [')']

/-- An entry line without its two leading spaces and trailing newline. -/
def mkEntryStripped (m t n : Str) : Str :=
  str "(lib (name " ++ '"' :: n ++ '"' :: entryAfterName m t n

/-- One synthesized entry line
`  (lib (name "n")(type "KiCad")(uri "${KIPRJMOD}/m/n/t")(options "")(descr ""))\n`. -/
def mkEntry (m t n : Str) : Str :=
  ' ' :: ' ' :: mkEntryStripped m t n ++ ['\n']

/-- The fp-table entry template of helper.py:143 (uri directory hardcoded to
`lib`). -/
def fpEntry (n : Str) : Str := mkEntry (str "lib") (str "footprint.kicad_mod") n

/-- The sym-table entry template of helper.py:182 (uri directory hardcoded to
`lib`). -/
def symEntry (n : Str) : Str := mkEntry (str "lib") (str "symbol.kicad_sym") n

/-- The entry templates of jlcimporter.py:141-144, parametrized by `lib_dir`. -/
def kicadEntry (lib_dir : Str) (lt : LibType) (n : Str) : Str :=
  mkEntry lib_dir lt.fileName n

/-- `line.split("\"")[1]`: Python raises `IndexError` when the line contains no
quote at all. -/
def extractName (line : Str) : Except Unit Str :=
  match (splitOnChar '"' line).get? 1 with
  | some nm => .ok nm
  | none => .error ()

/-- Collect the names of all lines accepted by `isEntry`
(the `existing_parts` scan). -/
def scanNames (isEntry : Str → Bool) : List Str → Except Unit (List Str)
  | [] => .ok []
  | l :: ls =>
    if isEntry l then do
      let nm ← extractName l
      let rest ← scanNames isEntry ls
      .ok (nm :: rest)
    else scanNames isEntry ls

/-- The fp/kicad entry test `"(lib (name" in line`. -/
def isEntryLineFp (l : Str) : Bool := strContains entryMarker l

/-- The sym entry test `line.strip().startswith("(lib (name")`. -/
def isEntryLineSym (l : Str) : Bool := entryMarker.isPrefixOf (pyStrip l)

/-- `update_fp_lib_table` (helper.py:116-155) as a file-state transformer.
`none` means the table file does not exist.  `Except.error` models the
uncaught `IndexError` of `file_contents[-1]` on an empty existing file. -/
def update_fp_lib_table (state : Option Str) (ns : List Str) :
    Except Unit (Option Str) := do
  let fileExists := state.isSome
  let fc0 := match state with
    | some s => splitLines s
    | none => [fpOpenLine, versionLine]
  let (fc1, existing) ←
    if fileExists then
      match fc0.getLast? with
      | none => .error ()
      | some last =>
        let fc1 := if pyStrip last = [')'] then fc0.dropLast else fc0
        do
          let ex ← scanNames isEntryLineFp fc1
          pure (fc1, ex)
    else
      pure (fc0, ([] : List Str))
  let newEntries := (ns.filter (fun n => !decide (n ∈ existing))).map fpEntry
  if newEntries.isEmpty then pure state
  else pure (some (fc1 ++ newEntries ++ [closeLine]).flatten)

/-- `update_sym_lib_table` (helper.py:158-187) as a file-state transformer.
The file is opened in append mode, so the result is the old content followed
by whatever was written. -/
def update_sym_lib_table (state : Option Str) (ns : List Str) :
    Except Unit (Option Str) := do
  let fileIsEmpty := match state with
    | none => true
    | some s => s.isEmpty
  let existing ← match state with
    | some s => scanNames isEntryLineSym (splitLines s)
    | none => pure []
  let base := state.getD []
  let header := if fileIsEmpty then symOpenLine ++ versionLine else []
  let entries := ((ns.filter (fun n => !decide (n ∈ existing))).map symEntry).flatten
  let close := if fileIsEmpty then closeLine else []
  pure (some (base ++ header ++ entries ++ close))

/-- `update_kicad_lib_table` (jlcimporter.py:135-172) as a file-state
transformer.  `Except.error` models the uncaught `IndexError` of
`file_contents[-1]` at line 168 when the list is empty there. -/
def update_kicad_lib_table (state : Option Str) (lib_dir : Str) (ns : List Str)
    (lt : LibType) : Except Unit (Option Str) := do
  let fc0 := match state with
    | some s => splitLines s
    | none => [lt.openLine, versionLine]
  let fc1 :=
    if fc0 ≠ [] ∧ pyStrip (fc0.getLastD []) = [')'] then fc0.dropLast else fc0
  let existing ← scanNames isEntryLineFp fc1
  let fc2 := fc1 ++ (ns.filter (fun n => !decide (n ∈ existing))).map (kicadEntry lib_dir lt)
  match fc2.getLast? with
  | none => .error ()
  | some last =>
    let fc3 := if pyStrip last ≠ [')'] then fc2 ++ [closeLine] else fc2
    pure (some fc3.flatten)

/-! ## In-file property rewriters -/

/-- Index of the first `')'` in a line, or the line length when there is none
(`end_of_path = line.find(')'); if end_of_path == -1: end_of_path = len(line)`,
jlcimporter.py:102-104). -/
def findParenIdx : Str → Nat
  | [] => 0
  | c :: cs => if c = ')' then 0 else findParenIdx cs + 1

/-- `lib_dir.strip("/").replace("\\", "/")` (jlcimporter.py:92). -/
def normalizedLibDir (lib_dir : Str) : Str :=
  let stripped := ((lib_dir.dropWhile (· = '/')).reverse.dropWhile (· = '/')).reverse
  stripped.map (fun c => if c = '\\' then '/' else c)

/-- `f"${KIPRJMOD}/{normalized_lib_dir}/{part_number}/model.step"`
(jlcimporter.py:93). -/
def newModelPath (lib_dir part_number : Str) : Str :=
  str "${KIPRJMOD}/" ++ normalizedLibDir lib_dir ++ '/' :: part_number
    ++ str "/model.step"

/-- The per-line rewrite of jlcimporter.py:99-108: a line whose stripped form
starts with `(model` is rebuilt as
`'(model ' + '"' + path + '"' + line[end_of_path:] + '\n'`. -/
def updateModelLine (path line : Str) : Str :=
  if (str "(model").isPrefixOf (pyStrip line) then
    str "(model \"" ++ path ++ '"' :: line.drop (findParenIdx line) ++ ['\n']
  else line

/-- The file-content transform of `update_model_property_in_footprint`
(jlcimporter.py:84-113): read all lines, rewrite each model line, write them
back. -/
def update_model_property_in_footprint (lib_dir part_number content : Str) : Str :=
  ((splitLines content).map
    (updateModelLine (newModelPath lib_dir part_number))).flatten

/-- The literal prefix of the pattern
`\(property "Footprint" ".*?"\)` (helper.py:90). -/
def fpPropPre : Str := str "(property \"Footprint\" \""

/-- The path embedded by `update_footprint_property`:
`f"{lib_dir}/{part_number}/{part_number}_footprint.kicad_mod"`. -/
def footprintRefPath (lib_dir part_number : Str) : Str :=
  lib_dir ++ '/' :: part_number ++ '/' :: part_number
    ++ str "_footprint.kicad_mod"

/-- The replacement string of helper.py:90:
`(property "Footprint" "{lib_dir}/{part}/{part}_footprint.kicad_mod")`. -/
def footprintRepl (lib_dir part_number : Str) : Str :=
  fpPropPre ++ footprintRefPath lib_dir part_number ++ str "\")"

/-- For the non-greedy `.*?"\)` tail of the pattern: find the least `k` such
that position `k` starts the terminator `")`, with no newline before it
(`.` does not match a newline). -/
def findCloseQ : Str → Option Nat
  | [] => none
  | c :: cs =>
    if c = '"' ∧ cs.head? = some ')' then some 0
    else if c = '\n' then none
    else (findCloseQ cs).map (· + 1)

/-- `re.sub(r'\(property "Footprint" ".*?"\)', repl, s)`: scan left to right,
replacing each non-overlapping match and continuing after it; on a failed
match attempt advance one character. -/
def reSubFootprint (repl : Str) (s : Str) : Str :=
  match s with
  | [] => []
  | c :: cs =>
    if fpPropPre.isPrefixOf (c :: cs) then
      match findCloseQ ((c :: cs).drop fpPropPre.length) with
      | some k => repl ++ reSubFootprint repl ((c :: cs).drop (fpPropPre.length + k + 2))
      | none => c :: reSubFootprint repl cs
    else c :: reSubFootprint repl cs
termination_by s.length
decreasing_by
  · simp only [List.length_drop, List.length_cons]
    omega
  · simp
  · simp

/-- The first match of the pattern, as a decomposition
`(before, value, after)` of the scanned string. -/
def findFootprintMatch : Str → Option (Str × Str × Str)
  | [] => none
  | c :: cs =>
    if fpPropPre.isPrefixOf (c :: cs) then
      match findCloseQ ((c :: cs).drop fpPropPre.length) with
      | some k =>
        some ([], ((c :: cs).drop fpPropPre.length).take k,
          (c :: cs).drop (fpPropPre.length + k + 2))
      | none => (findFootprintMatch cs).map (fun p => (c :: p.1, p.2.1, p.2.2))
    else (findFootprintMatch cs).map (fun p => (c :: p.1, p.2.1, p.2.2))

/-- The file-content transform of `update_footprint_property`
(helper.py:83-93). -/
def update_footprint_property (lib_dir part_number content : Str) : Str :=
  reSubFootprint (footprintRepl lib_dir part_number) content

/-! ## Generated-file classifier and placer -/

/-- `os.path.join` for POSIX paths (two components). -/
def pyJoin (a b : Str) : Str :=
  if b.head? = some '/' then b
  else if a = [] ∨ a.getLast? = some '/' then a ++ b
  else a ++ '/' :: b

/-- Classification of a staged file by suffix (jlcimporter.py:119-127 /
helper.py:99-107, in source order: `.step`, `.kicad_mod`, `.kicad_sym`). -/
inductive FKind | model | footprint | symbol | other
deriving DecidableEq

/-- `filename.endswith(...)` classification. -/
def classifyFile (filename : Str) : FKind :=
  if (str ".step").isSuffixOf filename then .model
  else if (str ".kicad_mod").isSuffixOf filename then .footprint
  else if (str ".kicad_sym").isSuffixOf filename then .symbol
  else .other

/-- The fixed canonical destination filename per class. -/
def canonicalFileName : FKind → Str
  | .model => str "model.step"
  | .footprint => str "footprint.kicad_mod"
  | .symbol => str "symbol.kicad_sym"
  | .other => []

/-- The destination path `os.path.join(os.path.join(lib_dir, part_number),
new_filename)` of helper.py:110-112. -/
def destFilePath (lib_dir part_number fname : Str) : Str :=
  pyJoin (pyJoin lib_dir part_number) fname

/-- Move a file into the destination directory, overwriting any file already
present under the same path. -/
def moveInto (dest : List (Str × Str)) (path src : Str) : List (Str × Str) :=
  dest.filter (fun p => !decide (p.1 = path)) ++ [(path, src)]

/-- `process_generated_files` (helper.py:96-113 / jlcimporter.py:116-132): walk
the staged files (as `(dirpath, filename)` pairs in walk order), move each
recognized file to its canonical destination, and leave the rest in place.
Returns the destination-directory contents (path ↦ source) and the files left
in staging. -/
def process_generated_files (lib_dir part_number : Str) :
    List (Str × Str) → List (Str × Str) → List (Str × Str) × List (Str × Str)
  | dest, [] => (dest, [])
  | dest, (d, f) :: rest =>
    match classifyFile f with
    | .other =>
      let r := process_generated_files lib_dir part_number dest rest
      (r.1, (d, f) :: r.2)
    | k =>
      process_generated_files lib_dir part_number
        (moveInto dest (destFilePath lib_dir part_number (canonicalFileName k)) (pyJoin d f))
        rest

/-! ## Basic string lemmas -/

theorem isPrefixOf_append_self (a b : Str) : a.isPrefixOf (a ++ b) = true := by
  induction a with
  | nil => simp [List.isPrefixOf]
  | cons c a ih => simp [List.isPrefixOf, ih]

theorem strContains_nil_needle (b : Str) : strContains [] b = true := by
  cases b with
  | nil => rfl
  | cons c t => simp [strContains, List.isPrefixOf]

theorem strContains_middle (n a b : Str) : strContains n (a ++ n ++ b) = true := by
  induction a with
  | nil =>
    cases n with
    | nil => simpa using strContains_nil_needle b
    | cons c t =>
      simp only [List.nil_append, List.cons_append, strContains, List.append_eq]
      rw [show c :: (t ++ b) = (c :: t) ++ b from rfl, isPrefixOf_append_self]
      simp
  | cons c a ih =>
    simp only [List.cons_append, strContains, List.append_eq]
    rw [ih]
    simp

theorem splitOnChar_ne_nil (sep : Char) (s : Str) : splitOnChar sep s ≠ [] := by
  cases s with
  | nil => simp [splitOnChar]
  | cons c cs =>
    simp only [splitOnChar]
    split
    · simp
    · split <;> simp

theorem splitOnChar_append (sep : Char) (a b : Str) (ha : sep ∉ a) :
    splitOnChar sep (a ++ sep :: b) = a :: splitOnChar sep b := by
  induction a with
  | nil => simp [splitOnChar]
  | cons c a ih =>
    have hc : c ≠ sep := by rintro rfl; exact ha (List.mem_cons_self _ _)
    have ha' : sep ∉ a := fun h => ha (List.mem_cons_of_mem _ h)
    simp only [List.cons_append, splitOnChar, if_neg hc, List.append_eq]
    rw [show a ++ sep :: b = a ++ sep :: b from rfl, ih ha']

/-! ## splitLines lemmas -/

/-- A proper line: ends with a newline, with no interior newline. -/
def IsLine (l : Str) : Prop := ∃ m, l = m ++ ['\n'] ∧ '\n' ∉ m

theorem splitLines_line (m : Str) (hm : '\n' ∉ m) (t : Str) :
    splitLines (m ++ '\n' :: t) = (m ++ ['\n']) :: splitLines t := by
  induction m with
  | nil => simp [splitLines]
  | cons c m ih =>
    have hc : c ≠ '\n' := by rintro rfl; exact hm (List.mem_cons_self _ _)
    have hm' : '\n' ∉ m := fun h => hm (List.mem_cons_of_mem _ h)
    simp only [List.cons_append, splitLines, if_neg hc, List.append_eq]
    rw [ih hm']

theorem splitLines_flatten (L : List Str) (h : ∀ l ∈ L, IsLine l) :
    splitLines L.flatten = L := by
  induction L with
  | nil => rfl
  | cons l L ih =>
    obtain ⟨m, rfl, hm⟩ := h l (List.mem_cons_self _ _)
    rw [List.flatten_cons, List.append_assoc, List.singleton_append,
      splitLines_line m hm, ih (fun l hl => h l (List.mem_cons_of_mem _ hl))]

theorem flatten_splitLines (s : Str) : (splitLines s).flatten = s := by
  induction s with
  | nil => rfl
  | cons c cs ih =>
    simp only [splitLines]
    split
    · next hc => subst hc; simpa using ih
    · next hc =>
      cases h : splitLines cs with
      | nil => rw [h] at ih; simpa using ih.symm
      | cons l ls => rw [h] at ih; simpa using ih

/-! ## strip lemmas -/

theorem pyLStrip_cons_space (c : Char) (h : isPySpace c = true) (s : Str) :
    pyLStrip (c :: s) = pyLStrip s := by
  simp [pyLStrip, List.dropWhile, h]

theorem pyLStrip_cons_nonspace (c : Char) (h : isPySpace c = false) (s : Str) :
    pyLStrip (c :: s) = c :: s := by
  simp [pyLStrip, List.dropWhile, h]

theorem pyRStrip_concat_space (c : Char) (h : isPySpace c = true) (s : Str) :
    pyRStrip (s ++ [c]) = pyRStrip s := by
  simp [pyRStrip, List.dropWhile, h]

theorem pyRStrip_concat_nonspace (c : Char) (h : isPySpace c = false) (s : Str) :
    pyRStrip (s ++ [c]) = s ++ [c] := by
  simp [pyRStrip, List.dropWhile, h]

/-! ## Entry-line lemmas -/

/-- A string free of quotes and newlines, safe to embed in an entry line. -/
def CleanStr (s : Str) : Prop := '"' ∉ s ∧ '\n' ∉ s

instance (s : Str) : Decidable (CleanStr s) :=
  inferInstanceAs (Decidable (_ ∧ _))

theorem entryMarker_space : str "(lib (name " = entryMarker ++ [' '] := by decide

theorem mkEntryStripped_head (m t n : Str) :
    mkEntryStripped m t n =
      '(' :: 'l' :: (str "ib (name " ++ '"' :: n ++ '"' :: entryAfterName m t n) := by
  simp only [mkEntryStripped]
  rw [show str "(lib (name " = '(' :: 'l' :: str "ib (name " from by decide]
  simp

theorem entryAfterName_concat (m t n : Str) :
    entryAfterName m t n =
      (str ")(type \"KiCad\")(uri \"${KIPRJMOD}/" ++ m ++ '/' :: n ++ '/' :: t
        ++ str "\")(options \"\")(descr \"\")") ++ [')'] := by
  simp [entryAfterName]

theorem no_newline_mkEntryStripped {m t n : Str} (hm : '\n' ∉ m) (ht : '\n' ∉ t)
    (hn : '\n' ∉ n) : '\n' ∉ mkEntryStripped m t n := by
  have a1 : '\n' ∉ str "(lib (name " := by decide
  have a2 : '\n' ∉ str ")(type \"KiCad\")(uri \"${KIPRJMOD}/" := by decide
  have a3 : '\n' ∉ str "\")(options \"\")(descr \"\")" := by decide
  have b1 : ('\n' : Char) ≠ '"' := by decide
  have b2 : ('\n' : Char) ≠ '/' := by decide
  have b3 : ('\n' : Char) ≠ ')' := by decide
  simp [mkEntryStripped, entryAfterName, a1, a2, a3, b1, b2, b3, hm, ht, hn]

theorem isLine_mkEntry {m t n : Str} (hm : '\n' ∉ m) (ht : '\n' ∉ t)
    (hn : '\n' ∉ n) : IsLine (mkEntry m t n) := by
  refine ⟨' ' :: ' ' :: mkEntryStripped m t n, by simp [mkEntry], ?_⟩
  intro h
  rcases List.mem_cons.mp h with h | h
  · exact absurd h (by decide)
  rcases List.mem_cons.mp h with h | h
  · exact absurd h (by decide)
  exact no_newline_mkEntryStripped hm ht hn h

theorem mkEntryStripped_concat (m t n : Str) :
    mkEntryStripped m t n =
      (str "(lib (name " ++ '"' :: n ++ '"' ::
        (str ")(type \"KiCad\")(uri \"${KIPRJMOD}/" ++ m ++ '/' :: n ++ '/' :: t
          ++ str "\")(options \"\")(descr \"\")")) ++ [')'] := by
  simp [mkEntryStripped, entryAfterName]

theorem pyStrip_mkEntry (m t n : Str) :
    pyStrip (mkEntry m t n) = mkEntryStripped m t n := by
  have h1 : pyLStrip (mkEntry m t n) = mkEntryStripped m t n ++ ['\n'] := by
    show pyLStrip ((' ' :: ' ' :: mkEntryStripped m t n) ++ ['\n'])
      = mkEntryStripped m t n ++ ['\n']
    rw [mkEntryStripped_head]
    simp only [List.cons_append]
    rw [pyLStrip_cons_space ' ' (by decide), pyLStrip_cons_space ' ' (by decide),
      pyLStrip_cons_nonspace '(' (by decide)]
  rw [pyStrip, h1, pyRStrip_concat_space '\n' (by decide)]
  rw [mkEntryStripped_concat, pyRStrip_concat_nonspace ')' (by decide)]

theorem isEntryLineFp_mkEntry (m t n : Str) :
    isEntryLineFp (mkEntry m t n) = true := by
  have : mkEntry m t n = (' ' :: ' ' :: []) ++ entryMarker ++
      (' ' :: '"' :: n ++ '"' :: entryAfterName m t n ++ ['\n']) := by
    simp only [mkEntry, mkEntryStripped, entryMarker_space]
    simp
  rw [isEntryLineFp, this, strContains_middle]

theorem isEntryLineSym_mkEntry (m t n : Str) :
    isEntryLineSym (mkEntry m t n) = true := by
  rw [isEntryLineSym, pyStrip_mkEntry]
  have : mkEntryStripped m t n =
      entryMarker ++ (' ' :: '"' :: n ++ '"' :: entryAfterName m t n) := by
    simp only [mkEntryStripped, entryMarker_space]
    simp
  rw [this, isPrefixOf_append_self]

theorem extractName_mkEntry {n : Str} (hn : '"' ∉ n) (m t : Str) :
    extractName (mkEntry m t n) = .ok n := by
  have h : mkEntry m t n = (' ' :: ' ' :: str "(lib (name ") ++
      '"' :: (n ++ '"' :: (entryAfterName m t n ++ ['\n'])) := by
    simp only [mkEntry, mkEntryStripped]
    simp
  rw [extractName, h, splitOnChar_append '"' _ _ (by decide),
    splitOnChar_append '"' _ _ hn]
  rfl

theorem pyStrip_mkEntry_ne_close (m t n : Str) :
    pyStrip (mkEntry m t n) ≠ [')'] := by
  rw [pyStrip_mkEntry, mkEntryStripped_head]
  intro h
  injection h with h1 _
  exact absurd h1 (by decide)

theorem mkEntry_ne_closeLine (m t n : Str) : mkEntry m t n ≠ closeLine := by
  intro h
  have h2 := congrArg List.head? h
  rw [show closeLine.head? = some ')' from by decide] at h2
  rw [show mkEntry m t n = ' ' :: (' ' :: mkEntryStripped m t n ++ ['\n'])
    from by simp [mkEntry]] at h2
  simp only [List.head?_cons, Option.some.injEq] at h2
  exact absurd h2 (by decide)

/-! ## Well-formed tables -/

/-- One pre-existing entry of a table, as the data its line was generated
from: uri directory, table file name, entry name. -/
structure EntrySpec where
  mid : Str
  tl : Str
  nm : Str

/-- The entry line an `EntrySpec` denotes. -/
def EntrySpec.line (e : EntrySpec) : Str := mkEntry e.mid e.tl e.nm

/-- All three components quote- and newline-free. -/
def EntrySpec.Clean (e : EntrySpec) : Prop :=
  CleanStr e.mid ∧ CleanStr e.tl ∧ CleanStr e.nm

instance (e : EntrySpec) : Decidable e.Clean :=
  inferInstanceAs (Decidable (_ ∧ _))

/-- The `EntrySpec` of an entry appended by `update_fp_lib_table`. -/
def fpSpec (n : Str) : EntrySpec := ⟨str "lib", str "footprint.kicad_mod", n⟩

/-- The `EntrySpec` of an entry appended by `update_sym_lib_table`. -/
def symSpec (n : Str) : EntrySpec := ⟨str "lib", str "symbol.kicad_sym", n⟩

/-- The `EntrySpec` of an entry appended by `update_kicad_lib_table`. -/
def kicadSpec (lib_dir : Str) (lt : LibType) (n : Str) : EntrySpec :=
  ⟨lib_dir, lt.fileName, n⟩

/-- The line sequence of a well-formed table. -/
def tableLines (opn : Str) (es : List EntrySpec) : List Str :=
  opn :: versionLine :: es.map EntrySpec.line ++ [closeLine]

/-- The byte content of a well-formed table. -/
def wfContent (opn : Str) (es : List EntrySpec) : Str := (tableLines opn es).flatten

/-- The two opening lines this program ever writes. -/
def OpnOk (opn : Str) : Prop := opn = fpOpenLine ∨ opn = symOpenLine

theorem opnOk_openLine (lt : LibType) : OpnOk lt.openLine := by
  cases lt
  · exact .inr rfl
  · exact .inl rfl

theorem opn_facts {opn : Str} (h : OpnOk opn) :
    IsLine opn ∧ isEntryLineFp opn = false ∧ isEntryLineSym opn = false ∧
      pyStrip opn ≠ [')'] ∧ opn ≠ [] := by
  rcases h with rfl | rfl
  · exact ⟨⟨str "(fp_lib_table", by decide, by decide⟩,
      by decide, by decide, by decide, by decide⟩
  · exact ⟨⟨str "(sym_lib_table", by decide, by decide⟩,
      by decide, by decide, by decide, by decide⟩

theorem versionLine_facts :
    IsLine versionLine ∧ isEntryLineFp versionLine = false ∧
      isEntryLineSym versionLine = false ∧ pyStrip versionLine ≠ [')'] := by
  exact ⟨⟨str "  (version 7)", by decide, by decide⟩, by decide, by decide, by decide⟩

theorem closeLine_facts :
    IsLine closeLine ∧ isEntryLineFp closeLine = false ∧
      isEntryLineSym closeLine = false ∧ pyStrip closeLine = [')'] := by
  exact ⟨⟨str ")", by decide, by decide⟩, by decide, by decide, by decide⟩

theorem isLine_tableLines {opn : Str} (ho : OpnOk opn) {es : List EntrySpec}
    (he : ∀ e ∈ es, e.Clean) : ∀ l ∈ tableLines opn es, IsLine l := by
  intro l hl
  rcases List.mem_cons.mp hl with rfl | hl
  · exact (opn_facts ho).1
  rcases List.mem_cons.mp hl with rfl | hl
  · exact versionLine_facts.1
  rcases List.mem_append.mp hl with hl | hl
  · obtain ⟨e, he', rfl⟩ := List.mem_map.mp hl
    obtain ⟨⟨_, hm⟩, ⟨_, ht⟩, _, hn⟩ := he e he'
    exact isLine_mkEntry hm ht hn
  · rw [List.mem_singleton.mp hl]
    exact closeLine_facts.1

theorem splitLines_wfContent {opn : Str} (ho : OpnOk opn) {es : List EntrySpec}
    (he : ∀ e ∈ es, e.Clean) :
    splitLines (wfContent opn es) = tableLines opn es :=
  splitLines_flatten _ (isLine_tableLines ho he)

/-! ## Scan lemmas -/

theorem scanNames_cons_neg {f : Str → Bool} {l : Str} (hf : f l = false)
    (ls : List Str) : scanNames f (l :: ls) = scanNames f ls := by
  simp [scanNames, hf]

theorem scanNames_entries {f : Str → Bool} (es : List EntrySpec) (r : List Str)
    (hf : ∀ e ∈ es, f e.line = true) (hq : ∀ e ∈ es, '"' ∉ e.nm) :
    scanNames f (es.map EntrySpec.line ++ r) =
      (scanNames f r).map (fun ex => es.map EntrySpec.nm ++ ex) := by
  induction es with
  | nil =>
    simp only [List.map_nil, List.nil_append]
    cases h : scanNames f r <;> simp [Except.map]
  | cons e es ih =>
    have h1 : f e.line = true := hf e (List.mem_cons_self _ _)
    have h2 : extractName e.line = .ok e.nm :=
      extractName_mkEntry (hq e (List.mem_cons_self _ _)) _ _
    simp only [List.map_cons, List.cons_append, scanNames, h1, if_true, h2,
      List.append_eq]
    rw [ih (fun e' h => hf e' (List.mem_cons_of_mem _ h))
      (fun e' h => hq e' (List.mem_cons_of_mem _ h))]
    cases h : scanNames f r <;> simp [Bind.bind, Except.bind, Except.map]

theorem scanNames_fp_tableBody {opn : Str} (ho : OpnOk opn) (es : List EntrySpec)
    (he : ∀ e ∈ es, e.Clean) :
    scanNames isEntryLineFp (opn :: versionLine :: es.map EntrySpec.line) =
      .ok (es.map EntrySpec.nm) := by
  rw [scanNames_cons_neg (opn_facts ho).2.1, scanNames_cons_neg versionLine_facts.2.1]
  have := scanNames_entries (f := isEntryLineFp) es []
    (fun e _ => isEntryLineFp_mkEntry _ _ _)
    (fun e h => (he e h).2.2.1)
  simpa [scanNames, Except.map] using this

theorem scanNames_sym_table {opn : Str} (ho : OpnOk opn) (es es2 : List EntrySpec)
    (he : ∀ e ∈ es, e.Clean) (he2 : ∀ e ∈ es2, e.Clean) :
    scanNames isEntryLineSym (tableLines opn es ++ es2.map EntrySpec.line) =
      .ok (es.map EntrySpec.nm ++ es2.map EntrySpec.nm) := by
  rw [tableLines]
  simp only [List.cons_append, List.append_assoc, List.nil_append,
    List.singleton_append]
  rw [scanNames_cons_neg (opn_facts ho).2.2.1,
    scanNames_cons_neg versionLine_facts.2.2.1]
  rw [scanNames_entries es (closeLine :: es2.map EntrySpec.line)
    (fun e _ => isEntryLineSym_mkEntry _ _ _) (fun e h => (he e h).2.2.1)]
  rw [scanNames_cons_neg closeLine_facts.2.2.1]
  have h2 := scanNames_entries (f := isEntryLineSym) es2 []
    (fun e _ => isEntryLineSym_mkEntry _ _ _) (fun e h => (he2 e h).2.2.1)
  simp only [List.append_nil] at h2
  rw [h2]
  simp [scanNames, Except.map]

/-! ## Merge run characterizations -/

theorem isEmpty_map {α β : Type} (f : α → β) (l : List α) :
    (l.map f).isEmpty = l.isEmpty := by
  cases l <;> rfl

theorem tableLines_concat (opn : Str) (es : List EntrySpec) :
    tableLines opn es = (opn :: versionLine :: es.map EntrySpec.line) ++ [closeLine] :=
  rfl

theorem map_line_fpSpec (ns : List Str) :
    (ns.map fpSpec).map EntrySpec.line = ns.map fpEntry := by
  simp only [List.map_map]
  rfl

theorem map_nm_fpSpec (ns : List Str) :
    (ns.map fpSpec).map EntrySpec.nm = ns := by
  induction ns with
  | nil => rfl
  | cons n ns ih => simp [fpSpec, ih]

theorem map_line_symSpec (ns : List Str) :
    (ns.map symSpec).map EntrySpec.line = ns.map symEntry := by
  simp only [List.map_map]
  rfl

theorem map_nm_symSpec (ns : List Str) :
    (ns.map symSpec).map EntrySpec.nm = ns := by
  induction ns with
  | nil => rfl
  | cons n ns ih => simp [symSpec, ih]

theorem map_line_kicadSpec (lib_dir : Str) (lt : LibType) (ns : List Str) :
    (ns.map (kicadSpec lib_dir lt)).map EntrySpec.line = ns.map (kicadEntry lib_dir lt) := by
  simp only [List.map_map]
  rfl

theorem map_nm_kicadSpec (lib_dir : Str) (lt : LibType) (ns : List Str) :
    (ns.map (kicadSpec lib_dir lt)).map EntrySpec.nm = ns := by
  induction ns with
  | nil => rfl
  | cons n ns ih => simp [kicadSpec, ih]

theorem fpSpec_clean {n : Str} (h : CleanStr n) : (fpSpec n).Clean :=
  ⟨show CleanStr (str "lib") from ⟨by decide, by decide⟩,
    show CleanStr (str "footprint.kicad_mod") from ⟨by decide, by decide⟩, h⟩

theorem symSpec_clean {n : Str} (h : CleanStr n) : (symSpec n).Clean :=
  ⟨show CleanStr (str "lib") from ⟨by decide, by decide⟩,
    show CleanStr (str "symbol.kicad_sym") from ⟨by decide, by decide⟩, h⟩

theorem kicadSpec_clean {ld n : Str} (hld : CleanStr ld) (h : CleanStr n)
    (lt : LibType) : (kicadSpec ld lt n).Clean := by
  refine ⟨hld, ?_, h⟩
  cases lt
  · exact show CleanStr (str "symbol.kicad_sym") from ⟨by decide, by decide⟩
  · exact show CleanStr (str "footprint.kicad_mod") from ⟨by decide, by decide⟩

theorem clean_append_specs {es : List EntrySpec} (he : ∀ e ∈ es, e.Clean)
    {es2 : List EntrySpec} (he2 : ∀ e ∈ es2, e.Clean) :
    ∀ e ∈ es ++ es2, e.Clean := by
  intro e h
  rcases List.mem_append.mp h with h | h
  · exact he e h
  · exact he2 e h

theorem clean_map_fpSpec {ns : List Str} (h : ∀ n ∈ ns, CleanStr n) :
    ∀ e ∈ ns.map fpSpec, e.Clean := by
  intro e he
  obtain ⟨n, hn, rfl⟩ := List.mem_map.mp he
  exact fpSpec_clean (h n hn)

theorem clean_map_symSpec {ns : List Str} (h : ∀ n ∈ ns, CleanStr n) :
    ∀ e ∈ ns.map symSpec, e.Clean := by
  intro e he
  obtain ⟨n, hn, rfl⟩ := List.mem_map.mp he
  exact symSpec_clean (h n hn)

theorem clean_map_kicadSpec {ld : Str} (hld : CleanStr ld) {ns : List Str}
    (h : ∀ n ∈ ns, CleanStr n) (lt : LibType) :
    ∀ e ∈ ns.map (kicadSpec ld lt), e.Clean := by
  intro e he
  obtain ⟨n, hn, rfl⟩ := List.mem_map.mp he
  exact kicadSpec_clean hld (h n hn) lt

theorem update_fp_run (es : List EntrySpec) (he : ∀ e ∈ es, e.Clean) (ns : List Str) :
    update_fp_lib_table (some (wfContent fpOpenLine es)) ns =
      .ok (if (ns.filter (fun n => !decide (n ∈ es.map EntrySpec.nm))).isEmpty
        then some (wfContent fpOpenLine es)
        else some (wfContent fpOpenLine
          (es ++ (ns.filter (fun n => !decide (n ∈ es.map EntrySpec.nm))).map fpSpec))) := by
  have hlast : (tableLines fpOpenLine es).getLast? = some closeLine := by
    rw [tableLines_concat, List.getLast?_concat]
  have hdrop : (tableLines fpOpenLine es).dropLast
      = fpOpenLine :: versionLine :: es.map EntrySpec.line := by
    rw [tableLines_concat, List.dropLast_concat]
  simp only [update_fp_lib_table, Option.isSome,
    splitLines_wfContent (Or.inl rfl) he, hlast, hdrop, if_true,
    closeLine_facts.2.2.2, eq_self_iff_true, scanNames_fp_tableBody (Or.inl rfl) es he,
    Bind.bind, Except.bind, pure, Except.pure, isEmpty_map]
  by_cases hx : (ns.filter (fun n => !decide (n ∈ es.map EntrySpec.nm))).isEmpty = true
  · rw [if_pos hx, if_pos hx]
  · rw [if_neg hx, if_neg hx]
    congr 2
    rw [wfContent, tableLines_concat]
    apply congrArg List.flatten
    simp only [List.map_append, map_line_fpSpec, List.append_assoc, List.cons_append]

theorem filter_nil_mem (ns : List Str) :
    ns.filter (fun n => !decide (n ∈ ([] : List Str))) = ns := by
  induction ns with
  | nil => rfl
  | cons n ns ih => simp [List.filter, ih]

theorem update_fp_none (ns : List Str) :
    update_fp_lib_table none ns =
      .ok (if ns.isEmpty then none
        else some (wfContent fpOpenLine (ns.map fpSpec))) := by
  simp only [update_fp_lib_table, Option.isSome, Bind.bind, Except.bind, pure,
    Except.pure, filter_nil_mem, isEmpty_map, Bool.false_eq_true, if_false]
  by_cases hx : ns.isEmpty = true
  · rw [if_pos hx, if_pos hx]
  · rw [if_neg hx, if_neg hx]
    congr 2
    rw [wfContent, tableLines_concat]
    apply congrArg List.flatten
    simp only [map_line_fpSpec, List.append_assoc, List.cons_append]
    rfl

theorem isEmpty_false_of_ne_nil {l : Str} (h : l ≠ []) : l.isEmpty = false := by
  cases l with
  | nil => exact absurd rfl h
  | cons c cs => rfl

theorem wfContent_cons {opn : Str} (ho : OpnOk opn) (es : List EntrySpec)
    (X : Str) : ∃ r, wfContent opn es ++ X = '(' :: r := by
  rcases ho with rfl | rfl
  · exact ⟨str "fp_lib_table\n" ++ ((versionLine :: es.map EntrySpec.line ++ [closeLine]).flatten ++ X), by
      rw [wfContent, tableLines_concat]
      simp [List.append_assoc, List.flatten_cons]
      rw [show fpOpenLine = '(' :: str "fp_lib_table\n" from by decide]
      simp [List.append_assoc]⟩
  · exact ⟨str "sym_lib_table\n" ++ ((versionLine :: es.map EntrySpec.line ++ [closeLine]).flatten ++ X), by
      rw [wfContent, tableLines_concat]
      simp [List.append_assoc, List.flatten_cons]
      rw [show symOpenLine = '(' :: str "sym_lib_table\n" from by decide]
      simp [List.append_assoc]⟩

theorem splitLines_wf_append {opn : Str} (ho : OpnOk opn) {es : List EntrySpec}
    (he : ∀ e ∈ es, e.Clean) {es2 : List EntrySpec} (he2 : ∀ e ∈ es2, e.Clean) :
    splitLines (wfContent opn es ++ (es2.map EntrySpec.line).flatten) =
      tableLines opn es ++ es2.map EntrySpec.line := by
  rw [wfContent, ← List.flatten_append]
  apply splitLines_flatten
  intro l hl
  rcases List.mem_append.mp hl with hl | hl
  · exact isLine_tableLines ho he l hl
  · obtain ⟨e, he', rfl⟩ := List.mem_map.mp hl
    obtain ⟨⟨_, hm⟩, ⟨_, ht⟩, _, hn⟩ := he2 e he'
    exact isLine_mkEntry hm ht hn

theorem update_sym_run (es es2 : List EntrySpec) (he : ∀ e ∈ es, e.Clean)
    (he2 : ∀ e ∈ es2, e.Clean) (ns : List Str) :
    update_sym_lib_table
        (some (wfContent symOpenLine es ++ (es2.map EntrySpec.line).flatten)) ns =
      .ok (some (wfContent symOpenLine es ++ (es2.map EntrySpec.line).flatten ++
        ((ns.filter (fun n =>
          !decide (n ∈ es.map EntrySpec.nm ++ es2.map EntrySpec.nm))).map
            symEntry).flatten)) := by
  obtain ⟨r, hr⟩ := wfContent_cons (Or.inr rfl) es ((es2.map EntrySpec.line).flatten)
  have hne : (wfContent symOpenLine es ++ (es2.map EntrySpec.line).flatten).isEmpty
      = false := by
    rw [hr]; rfl
  simp only [update_sym_lib_table, hne, splitLines_wf_append (Or.inr rfl) he he2,
    scanNames_sym_table (Or.inr rfl) es es2 he he2,
    Bind.bind, Except.bind, pure, Except.pure, Option.getD,
    Bool.false_eq_true, if_false, List.append_nil]

theorem update_sym_empty (st : Option Str) (hst : st = none ∨ st = some [])
    (ns : List Str) :
    update_sym_lib_table st ns =
      .ok (some (wfContent symOpenLine (ns.map symSpec))) := by
  have hout : symOpenLine ++ versionLine ++
      ((ns.map symEntry).flatten ++ closeLine) =
      wfContent symOpenLine (ns.map symSpec) := by
    rw [wfContent, tableLines_concat]
    simp only [map_line_symSpec, List.append_assoc, List.cons_append,
      List.flatten_append, List.flatten_cons]
    simp
  rcases hst with rfl | rfl
  · simp only [update_sym_lib_table, Bind.bind, Except.bind, pure, Except.pure,
      Option.getD, scanNames, filter_nil_mem, List.nil_append, if_true,
      List.isEmpty_nil]
    rw [← hout]
    simp [List.append_assoc]
  · simp only [update_sym_lib_table, Bind.bind, Except.bind, pure, Except.pure,
      Option.getD, splitLines, scanNames, filter_nil_mem, List.nil_append,
      List.isEmpty_nil, if_true]
    rw [← hout]
    simp [List.append_assoc]

theorem kicad_last (opn : Str) (X : List Str)
    (hX : ∀ l ∈ X, pyStrip l ≠ [')']) :
    ∃ x, (opn :: versionLine :: X).getLast? = some x ∧ pyStrip x ≠ [')'] := by
  rcases List.eq_nil_or_concat X with rfl | ⟨Y, a, rfl⟩
  · exact ⟨versionLine, by simp [List.getLast?], versionLine_facts.2.2.2⟩
  · refine ⟨a, ?_, hX a (by simp)⟩
    rw [List.concat_eq_append,
      show opn :: versionLine :: (Y ++ [a]) = (opn :: versionLine :: Y) ++ [a]
        from by simp, List.getLast?_concat]

theorem update_kicad_run (ld : Str) (lt : LibType) (es : List EntrySpec)
    (he : ∀ e ∈ es, e.Clean) (ns : List Str) :
    update_kicad_lib_table (some (wfContent lt.openLine es)) ld ns lt =
      .ok (some (wfContent lt.openLine
        (es ++ (ns.filter (fun n => !decide (n ∈ es.map EntrySpec.nm))).map
          (kicadSpec ld lt)))) := by
  have ho : OpnOk lt.openLine := opnOk_openLine lt
  have hlastD : (tableLines lt.openLine es).getLastD [] = closeLine := by
    rw [tableLines_concat, List.getLastD_concat]
  have hdrop : (tableLines lt.openLine es).dropLast
      = lt.openLine :: versionLine :: es.map EntrySpec.line := by
    rw [tableLines_concat, List.dropLast_concat]
  have hcond : tableLines lt.openLine es ≠ [] ∧
      pyStrip ((tableLines lt.openLine es).getLastD []) = [')'] := by
    refine ⟨by rw [tableLines_concat]; simp, ?_⟩
    rw [hlastD, closeLine_facts.2.2.2]
  obtain ⟨x, hx1, hx2⟩ := kicad_last lt.openLine
    (es.map EntrySpec.line ++
      (ns.filter (fun n => !decide (n ∈ es.map EntrySpec.nm))).map (kicadEntry ld lt))
    (by
      intro l hl
      rcases List.mem_append.mp hl with hl | hl
      · obtain ⟨e, _, rfl⟩ := List.mem_map.mp hl
        exact pyStrip_mkEntry_ne_close _ _ _
      · obtain ⟨n, _, rfl⟩ := List.mem_map.mp hl
        exact pyStrip_mkEntry_ne_close _ _ _)
  simp only [update_kicad_lib_table, splitLines_wfContent ho he, if_pos hcond,
    hdrop, scanNames_fp_tableBody ho es he, Bind.bind, Except.bind, pure,
    Except.pure, List.cons_append, List.append_assoc] at hx1 ⊢
  rw [hx1]
  simp only [if_pos hx2, Except.ok.injEq, Option.some.injEq]
  rw [wfContent, tableLines_concat]
  apply congrArg List.flatten
  simp only [List.map_append, map_line_kicadSpec, List.append_assoc,
    List.cons_append]

theorem update_kicad_none (ld : Str) (lt : LibType) (ns : List Str) :
    update_kicad_lib_table none ld ns lt =
      .ok (some (wfContent lt.openLine (ns.map (kicadSpec ld lt)))) := by
  have ho : OpnOk lt.openLine := opnOk_openLine lt
  have hcond : ¬([lt.openLine, versionLine] ≠ [] ∧
      pyStrip (([lt.openLine, versionLine] : List Str).getLastD []) = [')']) := by
    rintro ⟨-, h2⟩
    exact versionLine_facts.2.2.2 (by simpa [List.getLastD] using h2)
  have hscan : scanNames isEntryLineFp [lt.openLine, versionLine] = .ok [] := by
    rw [scanNames_cons_neg (opn_facts ho).2.1,
      scanNames_cons_neg versionLine_facts.2.1]
    rfl
  obtain ⟨x, hx1, hx2⟩ := kicad_last lt.openLine
    (ns.map (kicadEntry ld lt))
    (by
      intro l hl
      obtain ⟨n, _, rfl⟩ := List.mem_map.mp hl
      exact pyStrip_mkEntry_ne_close _ _ _)
  have hre : ([lt.openLine, versionLine] : List Str) ++
      (ns.filter (fun n => !decide (n ∈ ([] : List Str)))).map (kicadEntry ld lt)
      = lt.openLine :: versionLine :: ns.map (kicadEntry ld lt) := by
    rw [filter_nil_mem]
    rfl
  simp only [update_kicad_lib_table, if_neg hcond, hscan, Bind.bind, Except.bind,
    pure, Except.pure, hre]
  rw [hx1]
  simp only [if_pos hx2, Except.ok.injEq, Option.some.injEq]
  rw [wfContent, tableLines_concat]
  apply congrArg List.flatten
  simp only [map_line_kicadSpec, List.append_assoc, List.cons_append]

/-! ## Idempotence infrastructure -/

theorem filter_self_mem (ns : List Str) :
    ns.filter (fun n => !decide (n ∈ ns)) = [] := by
  rw [List.filter_eq_nil_iff]
  intro n hn
  simp [hn]

theorem filter_mem_append_filter (ns base : List Str) :
    ns.filter (fun n =>
      !decide (n ∈ base ++ ns.filter (fun n => !decide (n ∈ base)))) = [] := by
  rw [List.filter_eq_nil_iff]
  intro n hn
  have : n ∈ base ++ ns.filter (fun n => !decide (n ∈ base)) := by
    by_cases hb : n ∈ base
    · exact List.mem_append.mpr (Or.inl hb)
    · exact List.mem_append.mpr (Or.inr (List.mem_filter.mpr ⟨hn, by simp [hb]⟩))
  simp [this]

theorem clean_of_mem_filter {ns : List Str} (hns : ∀ n ∈ ns, CleanStr n)
    {p : Str → Bool} : ∀ n ∈ ns.filter p, CleanStr n := by
  intro n hn
  exact hns n (List.mem_filter.mp hn).1

/-- A table state the merge is idempotent from: the file does not exist, or it
holds a well-formed table whose entries were generated from clean data. -/
def WfState (opn : Str) (st : Option Str) : Prop :=
  st = none ∨ ∃ es : List EntrySpec, (∀ e ∈ es, e.Clean) ∧ st = some (wfContent opn es)

theorem update_sym_run_wf (es : List EntrySpec) (he : ∀ e ∈ es, e.Clean)
    (ns : List Str) :
    update_sym_lib_table (some (wfContent symOpenLine es)) ns =
      .ok (some (wfContent symOpenLine es ++
        ((ns.filter (fun n => !decide (n ∈ es.map EntrySpec.nm))).map
          symEntry).flatten)) := by
  have h := update_sym_run es [] he (by simp) ns
  simpa using h

theorem update_fp_idem {ns : List Str} (hns : ∀ n ∈ ns, CleanStr n)
    {st st' : Option Str} (hwf : WfState fpOpenLine st)
    (hrun : update_fp_lib_table st ns = .ok st') :
    update_fp_lib_table st' ns = .ok st' := by
  rcases hwf with rfl | ⟨es, he, rfl⟩
  · rw [update_fp_none, Except.ok.injEq] at hrun
    subst hrun
    by_cases hc : ns.isEmpty = true
    · rw [if_pos hc, update_fp_none, if_pos hc]
    · rw [if_neg hc, update_fp_run (ns.map fpSpec) (clean_map_fpSpec hns)]
      simp only [map_nm_fpSpec, filter_self_mem, List.isEmpty_nil, if_pos]
  · rw [update_fp_run es he, Except.ok.injEq] at hrun
    subst hrun
    by_cases hc : (ns.filter (fun n => !decide (n ∈ es.map EntrySpec.nm))).isEmpty
        = true
    · rw [if_pos hc, update_fp_run es he, if_pos hc]
    · rw [if_neg hc,
        update_fp_run _ (clean_append_specs he
          (clean_map_fpSpec (clean_of_mem_filter hns)))]
      simp only [List.map_append, map_nm_fpSpec, filter_mem_append_filter,
        List.isEmpty_nil, if_pos, List.map_nil, List.append_nil]

theorem update_sym_idem {ns : List Str} (hns : ∀ n ∈ ns, CleanStr n)
    {st st' : Option Str} (hwf : WfState symOpenLine st)
    (hrun : update_sym_lib_table st ns = .ok st') :
    update_sym_lib_table st' ns = .ok st' := by
  rcases hwf with rfl | ⟨es, he, rfl⟩
  · rw [update_sym_empty _ (Or.inl rfl), Except.ok.injEq] at hrun
    subst hrun
    rw [update_sym_run_wf (ns.map symSpec) (clean_map_symSpec hns)]
    simp only [map_nm_symSpec, filter_self_mem, List.map_nil, List.flatten_nil,
      List.append_nil]
  · rw [update_sym_run_wf es he, Except.ok.injEq] at hrun
    subst hrun
    have h2 := update_sym_run es
      ((ns.filter (fun n => !decide (n ∈ es.map EntrySpec.nm))).map symSpec)
      he (clean_map_symSpec (clean_of_mem_filter hns)) ns
    rw [map_line_symSpec] at h2
    rw [h2]
    simp only [map_nm_symSpec, filter_mem_append_filter, List.map_nil,
      List.flatten_nil, List.append_nil]

theorem update_kicad_idem {ns : List Str} (hns : ∀ n ∈ ns, CleanStr n)
    {ld : Str} (hld : CleanStr ld) {lt : LibType} {st st' : Option Str}
    (hwf : WfState lt.openLine st)
    (hrun : update_kicad_lib_table st ld ns lt = .ok st') :
    update_kicad_lib_table st' ld ns lt = .ok st' := by
  rcases hwf with rfl | ⟨es, he, rfl⟩
  · rw [update_kicad_none, Except.ok.injEq] at hrun
    subst hrun
    rw [update_kicad_run ld lt (ns.map (kicadSpec ld lt))
      (clean_map_kicadSpec hld hns lt)]
    simp only [map_nm_kicadSpec, filter_self_mem, List.map_nil, List.append_nil]
  · rw [update_kicad_run ld lt es he, Except.ok.injEq] at hrun
    subst hrun
    rw [update_kicad_run ld lt _ (clean_append_specs he
      (clean_map_kicadSpec hld (clean_of_mem_filter hns) lt))]
    simp only [List.map_append, map_nm_kicadSpec, filter_mem_append_filter,
      List.map_nil, List.append_nil]

/-! ## Claim C1 -/

/-- Claim C1, counterexample: on the table file state `x"Q"y` (a single
unterminated line containing quotes) and name list `["A"]`, running each of the
three mergers twice differs from running it once, so none of the three merge
implementations is idempotent on every table file state.  (The second run
extracts `Q`, not `A`, as the existing name, because the first appended entry
was merged into the unterminated last line.) -/
theorem merge_idempotent_counterexample :
    ((update_fp_lib_table (some (str "x\"Q\"y")) [str "A"]).bind
        (fun st => update_fp_lib_table st [str "A"]) ≠
      update_fp_lib_table (some (str "x\"Q\"y")) [str "A"]) ∧
    ((update_sym_lib_table (some (str "x\"Q\"y")) [str "A"]).bind
        (fun st => update_sym_lib_table st [str "A"]) ≠
      update_sym_lib_table (some (str "x\"Q\"y")) [str "A"]) ∧
    ((update_kicad_lib_table (some (str "x\"Q\"y")) (str "lib") [str "A"] .fp).bind
        (fun st => update_kicad_lib_table st (str "lib") [str "A"] .fp) ≠
      update_kicad_lib_table (some (str "x\"Q\"y")) (str "lib") [str "A"] .fp) := by
  decide

/-- Claim C1 (amended): each of the three merge implementations (fp-table,
sym-table, and the combined kicad-table merger) is idempotent on every table
file state that either does not exist or holds a well-formed table, for every
list of canonical names free of quotes and newlines (and, for the combined
merger, a lib_dir free of quotes and newlines): whenever the first merge
succeeds and produces state `st'`, merging `st'` again with the same names
succeeds and leaves it unchanged. -/
theorem merge_idempotent_on_wf (ns : List Str) (hns : ∀ n ∈ ns, CleanStr n)
    (ld : Str) (hld : CleanStr ld) :
    (∀ st st', WfState fpOpenLine st → update_fp_lib_table st ns = .ok st' →
      update_fp_lib_table st' ns = .ok st') ∧
    (∀ st st', WfState symOpenLine st → update_sym_lib_table st ns = .ok st' →
      update_sym_lib_table st' ns = .ok st') ∧
    (∀ lt st st', WfState (LibType.openLine lt) st →
      update_kicad_lib_table st ld ns lt = .ok st' →
      update_kicad_lib_table st' ld ns lt = .ok st') :=
  ⟨fun _ _ hwf hrun => update_fp_idem hns hwf hrun,
   fun _ _ hwf hrun => update_sym_idem hns hwf hrun,
   fun _ _ _ hwf hrun => update_kicad_idem hns hld hwf hrun⟩

/-- Witness for the amended C1 theorem at a concrete input: the fp merger,
run on a nonexistent file with name list `["A"]`, produces a well-formed
one-entry table, and a second run on that table leaves it unchanged. -/
theorem merge_idempotent_on_wf_witness :
    (∀ n ∈ [str "A"], CleanStr n) ∧ CleanStr (str "lib") ∧
    update_fp_lib_table (some (wfContent fpOpenLine [fpSpec (str "A")])) [str "A"] =
      .ok (some (wfContent fpOpenLine [fpSpec (str "A")])) := by
  refine ⟨by decide, by decide, ?_⟩
  exact (merge_idempotent_on_wf [str "A"] (by decide) (str "lib") (by decide)).1
    none (some (wfContent fpOpenLine [fpSpec (str "A")])) (Or.inl rfl) (by decide)

/-! ## Claim C2 -/

theorem countP_close_entries (X : List EntrySpec) :
    (X.map EntrySpec.line).countP (fun l => decide (pyStrip l = [')'])) = 0 := by
  rw [List.countP_eq_zero]
  intro l hl
  obtain ⟨e, _, rfl⟩ := List.mem_map.mp hl
  simpa using pyStrip_mkEntry_ne_close e.mid e.tl e.nm

theorem countP_close_tableLines {opn : Str} (ho : OpnOk opn) (es : List EntrySpec) :
    (tableLines opn es).countP (fun l => decide (pyStrip l = [')'])) = 1 := by
  rw [tableLines_concat, List.countP_append, List.countP_cons, List.countP_cons]
  rw [countP_close_entries]
  have h1 : decide (pyStrip opn = [')']) = false := by
    simp [(opn_facts ho).2.2.2.1]
  have h2 : decide (pyStrip versionLine = [')']) = false := by
    simp [versionLine_facts.2.2.2]
  rw [h1, h2]
  simp [List.countP, List.countP.go, closeLine_facts.2.2.2]

/-- Claim C2, counterexample: the sym-table merger on an existing well-formed
(empty-entry) table with one new name appends the entry after the closing
delimiter, so the resulting file's last line is the entry line, not the
closing delimiter. -/
theorem merge_close_last_counterexample :
    update_sym_lib_table (some (wfContent symOpenLine [])) [str "A"] =
      .ok (some (wfContent symOpenLine [] ++ symEntry (str "A"))) ∧
    (splitLines (wfContent symOpenLine [] ++ symEntry (str "A"))).getLast? =
      some (symEntry (str "A")) ∧
    symEntry (str "A") ≠ closeLine := by
  refine ⟨by decide, by decide, by decide⟩

/-- Claim C2 (amended): merging into an existing well-formed table leaves the
whole original line sequence except the closing delimiter as an unchanged
prefix (so every pre-existing entry line is byte-for-byte identical, in its
original order), and the output holds exactly one closing-delimiter line.
For the fp-table and combined mergers the closing delimiter is the last line;
the sym-table merger keeps the entire original table (closing delimiter
included) as a prefix but appends new entries after the closing delimiter, so
its output ends with the closing delimiter iff no new entry was appended. -/
theorem merge_preserves_entries (es : List EntrySpec) (he : ∀ e ∈ es, e.Clean)
    (ns : List Str) (hns : ∀ n ∈ ns, CleanStr n) (ld : Str) (hld : CleanStr ld) :
    (∀ c', update_fp_lib_table (some (wfContent fpOpenLine es)) ns = .ok (some c') →
      (∃ rest, splitLines c' =
        (fpOpenLine :: versionLine :: es.map EntrySpec.line) ++ rest) ∧
      (splitLines c').getLast? = some closeLine ∧
      (splitLines c').countP (fun l => decide (pyStrip l = [')'])) = 1) ∧
    (∀ lt c', update_kicad_lib_table (some (wfContent (LibType.openLine lt) es))
        ld ns lt = .ok (some c') →
      (∃ rest, splitLines c' =
        (LibType.openLine lt :: versionLine :: es.map EntrySpec.line) ++ rest) ∧
      (splitLines c').getLast? = some closeLine ∧
      (splitLines c').countP (fun l => decide (pyStrip l = [')'])) = 1) ∧
    (∀ c', update_sym_lib_table (some (wfContent symOpenLine es)) ns = .ok (some c') →
      (∃ rest, splitLines c' = tableLines symOpenLine es ++ rest) ∧
      (splitLines c').countP (fun l => decide (pyStrip l = [')'])) = 1 ∧
      ((splitLines c').getLast? = some closeLine ↔
        ns.filter (fun n => !decide (n ∈ es.map EntrySpec.nm)) = [])) := by
  refine ⟨?_, ?_, ?_⟩
  · intro c' hrun
    rw [update_fp_run es he, Except.ok.injEq] at hrun
    by_cases hc : (ns.filter (fun n => !decide (n ∈ es.map EntrySpec.nm))).isEmpty
        = true
    · rw [if_pos hc, Option.some.injEq] at hrun
      subst hrun
      rw [splitLines_wfContent (Or.inl rfl) he]
      refine ⟨⟨[closeLine], tableLines_concat _ _⟩, ?_, countP_close_tableLines (Or.inl rfl) es⟩
      rw [tableLines_concat, List.getLast?_concat]
    · rw [if_neg hc, Option.some.injEq] at hrun
      subst hrun
      have he' : ∀ e ∈ es ++ (ns.filter
          (fun n => !decide (n ∈ es.map EntrySpec.nm))).map fpSpec, e.Clean :=
        clean_append_specs he (clean_map_fpSpec (clean_of_mem_filter hns))
      rw [splitLines_wfContent (Or.inl rfl) he']
      refine ⟨?_, ?_, countP_close_tableLines (Or.inl rfl) _⟩
      · refine ⟨((ns.filter (fun n => !decide (n ∈ es.map EntrySpec.nm))).map
          fpSpec).map EntrySpec.line ++ [closeLine], ?_⟩
        rw [tableLines_concat]
        simp [List.map_append, List.append_assoc]
      · rw [tableLines_concat, List.getLast?_concat]
  · intro lt c' hrun
    rw [update_kicad_run ld lt es he, Except.ok.injEq, Option.some.injEq] at hrun
    subst hrun
    have he' : ∀ e ∈ es ++ (ns.filter
        (fun n => !decide (n ∈ es.map EntrySpec.nm))).map (kicadSpec ld lt),
        e.Clean :=
      clean_append_specs he (clean_map_kicadSpec hld (clean_of_mem_filter hns) lt)
    rw [splitLines_wfContent (opnOk_openLine lt) he']
    refine ⟨?_, ?_, countP_close_tableLines (opnOk_openLine lt) _⟩
    · refine ⟨((ns.filter (fun n => !decide (n ∈ es.map EntrySpec.nm))).map
        (kicadSpec ld lt)).map EntrySpec.line ++ [closeLine], ?_⟩
      rw [tableLines_concat]
      simp [List.map_append, List.append_assoc]
    · rw [tableLines_concat, List.getLast?_concat]
  · intro c' hrun
    rw [update_sym_run_wf es he, Except.ok.injEq, Option.some.injEq] at hrun
    subst hrun
    have hsplit : splitLines (wfContent symOpenLine es ++
        (((ns.filter (fun n => !decide (n ∈ es.map EntrySpec.nm))).map
          symEntry).flatten)) =
        tableLines symOpenLine es ++
          (((ns.filter (fun n => !decide (n ∈ es.map EntrySpec.nm))).map
            symSpec).map EntrySpec.line) := by
      rw [← map_line_symSpec]
      exact splitLines_wf_append (Or.inr rfl) he
        (clean_map_symSpec (clean_of_mem_filter hns))
    rw [hsplit]
    refine ⟨⟨_, rfl⟩, ?_, ?_⟩
    · rw [List.countP_append, countP_close_tableLines (Or.inr rfl) es,
        countP_close_entries]
    · constructor
      · intro hlast
        by_contra hne
        obtain ⟨Y, a, hya⟩ := (List.eq_nil_or_concat
          (ns.filter (fun n => !decide (n ∈ es.map EntrySpec.nm)))).resolve_left hne
        rw [hya, List.concat_eq_append] at hlast
        rw [show tableLines symOpenLine es ++
            (((Y ++ [a]).map symSpec).map EntrySpec.line) =
            (tableLines symOpenLine es ++ (Y.map symSpec).map EntrySpec.line)
              ++ [EntrySpec.line (symSpec a)] from by
          simp [List.map_append, List.append_assoc], List.getLast?_concat] at hlast
        exact mkEntry_ne_closeLine _ _ _ (Option.some.inj hlast)
      · intro h
        rw [h]
        simp only [List.map_nil, List.append_nil]
        rw [tableLines_concat, List.getLast?_concat]

set_option maxRecDepth 4000 in
/-- Witness for the amended C2 theorem: merging name `B` into a well-formed
fp-table holding one entry `A` keeps the original header and entry lines as a
prefix, and the output ends with a single closing delimiter. -/
theorem merge_preserves_entries_witness :
    ((∀ e ∈ [fpSpec (str "A")], e.Clean) ∧ (∀ n ∈ [str "B"], CleanStr n) ∧
      CleanStr (str "lib")) ∧
    ((∃ rest, splitLines (wfContent fpOpenLine [fpSpec (str "A"), fpSpec (str "B")]) =
        (fpOpenLine :: versionLine :: [fpSpec (str "A")].map EntrySpec.line) ++ rest) ∧
      (splitLines (wfContent fpOpenLine [fpSpec (str "A"), fpSpec (str "B")])).getLast?
        = some closeLine ∧
      (splitLines (wfContent fpOpenLine [fpSpec (str "A"), fpSpec (str "B")])).countP
        (fun l => decide (pyStrip l = [')'])) = 1) := by
  refine ⟨⟨by decide, by decide, by decide⟩, ?_⟩
  exact (merge_preserves_entries [fpSpec (str "A")] (by decide) [str "B"]
    (by decide) (str "lib") (by decide)).1
    (wfContent fpOpenLine [fpSpec (str "A"), fpSpec (str "B")]) (by decide)

/-! ## Claim C3 -/

theorem mkEntry_inj_nm {m t n₁ n₂ : Str} (h : mkEntry m t n₁ = mkEntry m t n₂) :
    n₁ = n₂ := by
  have h0 : (' ' :: ' ' :: mkEntryStripped m t n₁) ++ ['\n'] =
      (' ' :: ' ' :: mkEntryStripped m t n₂) ++ ['\n'] := by
    simpa [mkEntry] using h
  have h1 : mkEntryStripped m t n₁ = mkEntryStripped m t n₂ := by
    have := List.append_cancel_right h0
    simpa using this
  rw [mkEntryStripped, mkEntryStripped] at h1
  simp only [List.cons_append, List.append_assoc] at h1
  have h2 := List.append_cancel_left h1
  have h3 : n₁ ++ '"' :: entryAfterName m t n₁ =
      n₂ ++ '"' :: entryAfterName m t n₂ := by
    injection h2
  have hlen : n₁.length = n₂.length := by
    have hl := congrArg List.length h3
    simp only [List.length_append, List.length_cons, entryAfterName,
      List.length_append] at hl
    omega
  exact (List.append_inj h3 hlen).1

theorem count_mkEntry_map (m t : Str) (l : List Str) (n : Str) :
    (l.map (mkEntry m t)).count (mkEntry m t n) = l.count n := by
  induction l with
  | nil => rfl
  | cons a l ih =>
    by_cases h : a = n
    · subst h
      simp [List.count_cons, ih]
    · have hne : ¬(mkEntry m t a = mkEntry m t n) := fun hc => h (mkEntry_inj_nm hc)
      simp [List.count_cons, ih, h, hne]

theorem versionLine_ne_mkEntry (m t n : Str) : versionLine ≠ mkEntry m t n := by
  intro h
  have hm : mkEntry m t n = ' ' :: ' ' :: '(' :: 'l' ::
      ((str "ib (name " ++ '"' :: n ++ '"' :: entryAfterName m t n) ++ ['\n']) := by
    rw [mkEntry, mkEntryStripped_head]
    simp
  rw [hm] at h
  exact absurd (by rw [h]; rfl : versionLine[3]? = some 'l') (by decide)

theorem opn_ne_mkEntry {opn : Str} (ho : OpnOk opn) (m t n : Str) :
    opn ≠ mkEntry m t n := by
  intro h
  have h2 := congrArg List.head? h
  rw [show mkEntry m t n = ' ' :: (' ' :: mkEntryStripped m t n ++ ['\n'])
    from by simp [mkEntry]] at h2
  simp only [List.head?_cons] at h2
  rcases ho with rfl | rfl
  · exact absurd h2 (by decide)
  · exact absurd h2 (by decide)

theorem closeLine_ne_mkEntry (m t n : Str) : closeLine ≠ mkEntry m t n := by
  intro h
  exact mkEntry_ne_closeLine m t n h.symm

theorem count_mkEntry_tableLines {opn : Str} (ho : OpnOk opn) (m t : Str)
    (ents : List Str) (n : Str) :
    (tableLines opn ((ents.map (fun x => (⟨m, t, x⟩ : EntrySpec))))).count
      (mkEntry m t n) = ents.count n := by
  rw [tableLines_concat, List.count_append, List.count_cons, List.count_cons]
  have hline : (ents.map (fun x => (⟨m, t, x⟩ : EntrySpec))).map EntrySpec.line
      = ents.map (mkEntry m t) := by
    simp only [List.map_map]
    rfl
  rw [hline, count_mkEntry_map]
  have h1 : (opn == mkEntry m t n) = false := by
    rw [beq_eq_false_iff_ne]
    exact opn_ne_mkEntry ho m t n
  have h2 : (versionLine == mkEntry m t n) = false := by
    rw [beq_eq_false_iff_ne]
    exact versionLine_ne_mkEntry m t n
  have h3 : (closeLine == mkEntry m t n) = false := by
    rw [beq_eq_false_iff_ne]
    exact closeLine_ne_mkEntry m t n
  simp [h1, h2, h3, List.count_cons]

set_option maxRecDepth 10000 in
/-- Claim C3, counterexample: a single merge call with the duplicate name list
`["A", "A"]` on a nonexistent table appends two entries for `A`, for both the
fp-table and the combined kicad-table merger: the mergers never add an
appended name to the existing-name set, so entry names are not unique after
one run with a repeated name. -/
theorem merge_duplicate_counterexample :
    update_fp_lib_table none [str "A", str "A"] =
      .ok (some (wfContent fpOpenLine [fpSpec (str "A"), fpSpec (str "A")])) ∧
    update_kicad_lib_table none (str "lib") [str "A", str "A"] .fp =
      .ok (some (wfContent fpOpenLine
        [kicadSpec (str "lib") .fp (str "A"), kicadSpec (str "lib") .fp (str "A")])) ∧
    (splitLines (wfContent fpOpenLine [fpSpec (str "A"), fpSpec (str "A")])).count
      (fpEntry (str "A")) = 2 := by
  refine ⟨by decide, by decide, by decide⟩

/-- Claim C3 (amended): a merge call appends one entry per occurrence of a
name not already present in the pre-existing table, so a name that occurs
twice in one run and is absent from the table gets two entries; only names
already present in the table are protected from duplication.  Stated as entry
counts: merging `ns` into an fp-table whose entries are exactly `ns0` gives,
for every name `n`, `ns0.count n` pre-existing entries plus `ns.count n` new
ones when `n` is absent from `ns0` (and none otherwise); merging `ns` into a
nonexistent kicad table gives exactly `ns.count n` entries for `n`. -/
theorem merge_duplicate_names (ns0 ns : List Str) (h0 : ∀ n ∈ ns0, CleanStr n)
    (hns : ∀ n ∈ ns, CleanStr n) (ld : Str) (hld : CleanStr ld) (n : Str) :
    (∀ c', update_fp_lib_table (some (wfContent fpOpenLine (ns0.map fpSpec))) ns
        = .ok (some c') →
      (splitLines c').count (fpEntry n) =
        ns0.count n + (if n ∈ ns0 then 0 else ns.count n)) ∧
    (∀ lt c', update_kicad_lib_table none ld ns lt = .ok (some c') →
      (splitLines c').count (kicadEntry ld lt n) = ns.count n) := by
  constructor
  · intro c' hrun
    rw [update_fp_run (ns0.map fpSpec) (clean_map_fpSpec h0), Except.ok.injEq]
      at hrun
    have hfilter : ns.filter (fun x =>
        !decide (x ∈ (ns0.map fpSpec).map EntrySpec.nm)) =
        ns.filter (fun x => !decide (x ∈ ns0)) := by
      rw [map_nm_fpSpec]
    rw [hfilter] at hrun
    have hcount : ∀ X : List Str,
        (tableLines fpOpenLine (ns0.map fpSpec ++ X.map fpSpec)).count
          (fpEntry n) = ns0.count n + X.count n := by
      intro X
      have hmap : ns0.map fpSpec ++ X.map fpSpec = (ns0 ++ X).map fpSpec :=
        (List.map_append _ _ _).symm
      rw [hmap]
      have h2 := count_mkEntry_tableLines (Or.inl rfl)
        (str "lib") (str "footprint.kicad_mod") (ns0 ++ X) n
      rw [List.count_append] at h2
      exact h2
    by_cases hmem : n ∈ ns0
    · rw [if_pos hmem]
      have hzero : (ns.filter (fun x => !decide (x ∈ ns0))).count n = 0 := by
        rw [List.count_eq_zero]
        intro hc
        have := (List.mem_filter.mp hc).2
        simp [hmem] at this
      by_cases hc : (ns.filter (fun x => !decide (x ∈ ns0))).isEmpty = true
      · rw [if_pos hc, Option.some.injEq] at hrun
        subst hrun
        rw [splitLines_wfContent (Or.inl rfl) (clean_map_fpSpec h0)]
        have := hcount []
        simpa using this
      · rw [if_neg hc, Option.some.injEq] at hrun
        subst hrun
        rw [splitLines_wfContent (Or.inl rfl)
          (clean_append_specs (clean_map_fpSpec h0)
            (clean_map_fpSpec (clean_of_mem_filter hns)))]
        rw [hcount, hzero]
    · rw [if_neg hmem]
      have hkeep : (ns.filter (fun x => !decide (x ∈ ns0))).count n = ns.count n :=
        List.count_filter (by simp [hmem])
      by_cases hc : (ns.filter (fun x => !decide (x ∈ ns0))).isEmpty = true
      · rw [if_pos hc, Option.some.injEq] at hrun
        subst hrun
        rw [splitLines_wfContent (Or.inl rfl) (clean_map_fpSpec h0)]
        have hns0 : ns.count n = 0 := by
          rw [← hkeep, List.isEmpty_iff.mp hc]
          rfl
        have := hcount []
        simpa [hns0] using this
      · rw [if_neg hc, Option.some.injEq] at hrun
        subst hrun
        rw [splitLines_wfContent (Or.inl rfl)
          (clean_append_specs (clean_map_fpSpec h0)
            (clean_map_fpSpec (clean_of_mem_filter hns)))]
        rw [hcount, hkeep]
  · intro lt c' hrun
    rw [update_kicad_none, Except.ok.injEq, Option.some.injEq] at hrun
    subst hrun
    rw [splitLines_wfContent (opnOk_openLine lt)
      (clean_map_kicadSpec hld hns lt)]
    have h2 := count_mkEntry_tableLines (opnOk_openLine lt) ld lt.fileName ns n
    exact h2

set_option maxRecDepth 10000 in
/-- Witness for the amended C3 theorem: merging `["B", "B", "A"]` into an
fp-table holding entry `A` yields two entries for `B` and still one for `A`. -/
theorem merge_duplicate_names_witness :
    ((∀ n ∈ [str "A"], CleanStr n) ∧ (∀ n ∈ [str "B", str "B", str "A"], CleanStr n)
      ∧ CleanStr (str "lib")) ∧
    (splitLines (wfContent fpOpenLine
        [fpSpec (str "A"), fpSpec (str "B"), fpSpec (str "B")])).count
      (fpEntry (str "B")) =
      ([str "A"].count (str "B") +
        (if str "B" ∈ [str "A"] then 0 else [str "B", str "B", str "A"].count (str "B"))) := by
  refine ⟨⟨by decide, by decide, by decide⟩, ?_⟩
  exact (merge_duplicate_names [str "A"] [str "B", str "B", str "A"]
    (by decide) (by decide) (str "lib") (by decide) (str "B")).1
    (wfContent fpOpenLine [fpSpec (str "A"), fpSpec (str "B"), fpSpec (str "B")])
    (by decide)

/-! ## Claim C4 -/

/-- The well-formed envelope claim C4 describes: an opening tag line, the
version line, one entry line per name occurrence (in order), and a single
closing delimiter as the last line. -/
def WellFormedLines (opn : Str) (entryLs : List Str) (c : Str) : Prop :=
  splitLines c = opn :: versionLine :: entryLs ++ [closeLine] ∧
  (splitLines c).countP (fun l => decide (pyStrip l = [')'])) = 1 ∧
  (splitLines c).getLast? = some closeLine

theorem wfLines_of_table {opn : Str} (ho : OpnOk opn) {es : List EntrySpec}
    (he : ∀ e ∈ es, e.Clean) :
    WellFormedLines opn (es.map EntrySpec.line) (wfContent opn es) := by
  refine ⟨splitLines_wfContent ho he, ?_, ?_⟩
  · rw [splitLines_wfContent ho he]
    exact countP_close_tableLines ho es
  · rw [splitLines_wfContent ho he, tableLines_concat, List.getLast?_concat]

set_option maxRecDepth 10000 in
/-- Claim C4, counterexample: the fp-table merger run on a nonexistent file
with an empty name list writes no file at all; run on an existing empty file
it raises an uncaught IndexError; the combined merger on an existing empty
file raises IndexError when the name list is empty and produces a table
without the opening tag and version lines when it is not.  So the claim that
every such merge produces a well-formed envelope fails. -/
theorem merge_empty_table_counterexample :
    update_fp_lib_table none [] = .ok none ∧
    update_fp_lib_table (some []) [str "A"] = .error () ∧
    update_kicad_lib_table (some []) (str "lib") [] .fp = .error () ∧
    update_kicad_lib_table (some []) (str "lib") [str "A"] .fp =
      .ok (some (kicadEntry (str "lib") .fp (str "A") ++ closeLine)) := by
  refine ⟨by decide, by decide, by decide, by decide⟩

/-- Claim C4 (amended): a well-formed envelope (open tag line, version line,
one entry line per name occurrence, single closing delimiter as last line) is
produced by the sym-table merger on a nonexistent or empty table file for
every name list, by the fp-table merger on a nonexistent file when the name
list is nonempty (with an empty list it writes nothing), and by the combined
merger on a nonexistent file for every name list; the empty-existing-file
cases of the fp and combined mergers fail as the counterexample shows. -/
theorem merge_empty_table (ns : List Str) (hns : ∀ n ∈ ns, CleanStr n)
    (ld : Str) (hld : CleanStr ld) :
    (∀ st, (st = none ∨ st = some []) →
      update_sym_lib_table st ns =
        .ok (some (wfContent symOpenLine (ns.map symSpec))) ∧
      WellFormedLines symOpenLine (ns.map symEntry)
        (wfContent symOpenLine (ns.map symSpec))) ∧
    (ns ≠ [] →
      update_fp_lib_table none ns =
        .ok (some (wfContent fpOpenLine (ns.map fpSpec))) ∧
      WellFormedLines fpOpenLine (ns.map fpEntry)
        (wfContent fpOpenLine (ns.map fpSpec))) ∧
    (∀ lt, update_kicad_lib_table none ld ns lt =
        .ok (some (wfContent (LibType.openLine lt) (ns.map (kicadSpec ld lt)))) ∧
      WellFormedLines (LibType.openLine lt) (ns.map (kicadEntry ld lt))
        (wfContent (LibType.openLine lt) (ns.map (kicadSpec ld lt)))) := by
  refine ⟨?_, ?_, ?_⟩
  · intro st hst
    refine ⟨update_sym_empty st hst ns, ?_⟩
    have h := wfLines_of_table (Or.inr rfl) (clean_map_symSpec hns)
    rwa [map_line_symSpec] at h
  · intro hne
    constructor
    · rw [update_fp_none, if_neg (by simpa [List.isEmpty_iff] using hne)]
    · have h := wfLines_of_table (Or.inl rfl) (clean_map_fpSpec hns)
      rwa [map_line_fpSpec] at h
  · intro lt
    refine ⟨update_kicad_none ld lt ns, ?_⟩
    have h := wfLines_of_table (opnOk_openLine lt)
      (clean_map_kicadSpec hld hns lt)
    rwa [map_line_kicadSpec] at h

set_option maxRecDepth 10000 in
/-- Witness for the amended C4 theorem: the combined merger on a nonexistent
fp-table with names `["A"]` produces exactly the well-formed one-entry
table. -/
theorem merge_empty_table_witness :
    ((∀ n ∈ [str "A"], CleanStr n) ∧ CleanStr (str "lib")) ∧
    update_kicad_lib_table none (str "lib") [str "A"] .fp =
      .ok (some (wfContent (LibType.openLine .fp)
        ([str "A"].map (kicadSpec (str "lib") .fp)))) := by
  refine ⟨⟨by decide, by decide⟩, ?_⟩
  exact ((merge_empty_table [str "A"] (by decide) (str "lib") (by decide)).2.2
    LibType.fp).1

/-! ## Claim C9 -/

/-- Claim C9: on an existing table file with empty content, the fp merger
raises an uncaught IndexError (indexing the last line of the empty line list)
before writing anything, for every processed-name list; the combined merger
likewise raises IndexError on an empty existing file whenever the
processed-name list contributes no new entry (with an empty existing-name
set, exactly when the filtered name list is empty). -/
theorem empty_table_indexError :
    (∀ ns : List Str, update_fp_lib_table (some []) ns = .error ()) ∧
    (∀ (ld : Str) (lt : LibType) (ns : List Str),
      ns.filter (fun n => !decide (n ∈ ([] : List Str))) = [] →
      update_kicad_lib_table (some []) ld ns lt = .error ()) := by
  constructor
  · intro ns
    rfl
  · intro ld lt ns h
    rw [filter_nil_mem] at h
    subst h
    rfl

/-- Witness for C9 at a concrete input: both mergers raise on an existing
empty file. -/
theorem empty_table_indexError_witness :
    ([] : List Str).filter (fun n => !decide (n ∈ ([] : List Str))) = [] ∧
    update_kicad_lib_table (some []) (str "lib") [] .fp = .error () :=
  ⟨by decide, empty_table_indexError.2 (str "lib") .fp [] (by decide)⟩

/-! ## Claim C5 -/

theorem head_dropWhile_false {α : Type} (p : α → Bool) (l : List α) {c : α}
    (h : (l.dropWhile p).head? = some c) : p c = false := by
  induction l with
  | nil => simp [List.dropWhile] at h
  | cons a l ih =>
    cases ha : p a with
    | true =>
      simp only [List.dropWhile, ha] at h
      exact ih h
    | false =>
      simp only [List.dropWhile, ha, List.head?_cons, Option.some.injEq] at h
      rw [← h]
      exact ha

theorem pyStrip_no_trailing_newline (s : Str) :
    reMatchPart (pyStrip s) = reMatchCore (pyStrip s) := by
  rw [reMatchPart]
  have hlast : (pyStrip s).getLast? ≠ some '\n' := by
    intro h
    rw [pyStrip, pyRStrip, List.getLast?_reverse] at h
    have := head_dropWhile_false isPySpace _ h
    simp [isPySpace] at this
  cases h : (pyStrip s).getLast? with
  | none => simp
  | some c =>
    by_cases hc : c = '\n'
    · exact absurd (hc ▸ h) hlast
    · cases c
      simp_all

/-- Claim C5: the validator returns exactly the trimmed elements that match
the pattern, in input order with duplicates preserved, excluding every
non-matching element, and returns the empty list (not an error) when nothing
matches; a single string is treated as a one-element list.  The effective
pattern on trimmed input is exactly `^C[0-9]{1,8}$`: a `C` followed by one to
eight digits. -/
theorem validator_spec :
    (∀ ps : List Str, validate_part_numbers ps =
      ps.filterMap (fun p =>
        if reMatchPart (pyStrip p) then some (pyStrip p) else none)) ∧
    (∀ ps : List Str, validate_part_numbers ps = [] ↔
      ∀ p ∈ ps, reMatchPart (pyStrip p) = false) ∧
    (∀ s : Str, validate_part_numbers_input (.inl s) =
      validate_part_numbers_input (.inr [s])) ∧
    (∀ p : Str, reMatchPart (pyStrip p) = reMatchCore (pyStrip p)) ∧
    (∀ x : Str, reMatchCore x = true ↔
      ∃ ds : Str, x = 'C' :: ds ∧ 1 ≤ ds.length ∧ ds.length ≤ 8 ∧
        ds.all Char.isDigit = true) := by
  refine ⟨?_, ?_, fun s => rfl, pyStrip_no_trailing_newline, ?_⟩
  · intro ps
    induction ps with
    | nil => rfl
    | cons p ps ih =>
      rw [List.filterMap_cons]
      by_cases h : reMatchPart (pyStrip p) = true
      · rw [if_pos h]
        rw [show validate_part_numbers (p :: ps) =
          (pyStrip p :: ps.map pyStrip).filter reMatchPart from rfl]
        rw [List.filter_cons_of_pos h]
        rw [← ih]
        rfl
      · rw [if_neg h]
        rw [show validate_part_numbers (p :: ps) =
          (pyStrip p :: ps.map pyStrip).filter reMatchPart from rfl]
        rw [List.filter_cons_of_neg (by simpa using h)]
        exact ih
  · intro ps
    rw [validate_part_numbers]
    simp only [List.filter_eq_nil_iff, List.mem_map]
    constructor
    · intro h p hp
      have := h (pyStrip p) ⟨p, hp, rfl⟩
      simpa using this
    · rintro h a ⟨p, hp, rfl⟩
      simp [h p hp]
  · intro x
    cases x with
    | nil => simp [reMatchCore]
    | cons c ds =>
      constructor
      · intro h
        simp only [reMatchCore, Bool.and_eq_true, decide_eq_true_eq,
          Bool.not_eq_true'] at h
        obtain ⟨⟨⟨hc, hne⟩, hlen⟩, hall⟩ := h
        subst hc
        have hds : ds ≠ [] := by
          intro hd
          rw [hd] at hne
          simp at hne
        exact ⟨ds, rfl, List.length_pos.mpr hds, hlen, hall⟩
      · rintro ⟨ds', hds, h1, h2, h3⟩
        injection hds with hc hd
        subst hc
        subst hd
        have hnn : ds ≠ [] := by
          intro hd2
          rw [hd2] at h1
          exact absurd h1 (by decide)
        simp [reMatchCore, isEmpty_false_of_ne_nil hnn, h2, h3]

/-- Witness for C5 at a concrete input: validating
`[" C123 ", "bad-id", "C12345678"]` yields the trimmed matching subset. -/
theorem validator_spec_witness :
    validate_part_numbers [str " C123 ", str "bad-id", str "C12345678"] =
      [str " C123 ", str "bad-id", str "C12345678"].filterMap (fun p =>
        if reMatchPart (pyStrip p) then some (pyStrip p) else none) :=
  validator_spec.1 [str " C123 ", str "bad-id", str "C12345678"]

/-! ## Claim C10 -/

theorem footprintRefPath_rev19 (ld pn : Str) :
    (footprintRefPath ld pn).reverse[19]? = some '_' := by
  rw [footprintRefPath, List.reverse_append,
    List.getElem?_append_left
      (by decide : (19 : Nat) < (str "_footprint.kicad_mod").reverse.length)]
  decide

theorem destFilePath_rev19 (ld pn : Str) :
    (destFilePath ld pn (str "footprint.kicad_mod")).reverse[19]? = none ∨
    (destFilePath ld pn (str "footprint.kicad_mod")).reverse[19]? = some '/' := by
  rw [destFilePath, pyJoin, if_neg (by decide)]
  by_cases hA : pyJoin ld pn = [] ∨ (pyJoin ld pn).getLast? = some '/'
  · rw [if_pos hA]
    rcases hA with hA | hA
    · left
      rw [hA]
      decide
    · right
      rw [List.reverse_append,
        List.getElem?_append_right
          (by decide : (str "footprint.kicad_mod").reverse.length ≤ 19),
        show (19 : Nat) - (str "footprint.kicad_mod").reverse.length = 0
          from by decide,
        show ((pyJoin ld pn).reverse)[0]? = (pyJoin ld pn).reverse.head?
          from ((pyJoin ld pn).reverse.head?_eq_getElem?).symm,
        List.head?_reverse]
      rw [hA]
  · rw [if_neg hA]
    right
    rw [List.reverse_append, List.reverse_cons, List.append_assoc,
      List.singleton_append,
      List.getElem?_append_right
        (by decide : (str "footprint.kicad_mod").reverse.length ≤ 19),
      show (19 : Nat) - (str "footprint.kicad_mod").reverse.length = 0
        from by decide]
    simp

/-- Claim C10: for every lib_dir and canonical part name, the footprint path
string embedded into the symbol file by the footprint-reference rewrite
(`<lib_dir>/<name>/<name>_footprint.kicad_mod`) differs from the destination
path of the footprint file that the classifier actually creates
(`os.path.join(os.path.join(lib_dir, name), "footprint.kicad_mod")`), so the
rewritten symbol reference never names the relocated footprint file. -/
theorem footprint_path_mismatch (ld pn : Str) :
    footprintRefPath ld pn ≠ destFilePath ld pn (str "footprint.kicad_mod") := by
  intro h
  have h19 := congrArg (fun l : Str => l.reverse[19]?) h
  simp only [footprintRefPath_rev19] at h19
  rcases destFilePath_rev19 ld pn with hd | hd
  · rw [hd] at h19
    exact Option.noConfusion h19
  · rw [hd] at h19
    exact absurd (Option.some.inj h19) (by decide)

/-! ## Claim C6 -/

theorem splitLines_ne_nil_mem (s : Str) : ∀ l ∈ splitLines s, l ≠ [] := by
  induction s with
  | nil => simp [splitLines]
  | cons c cs ih =>
    intro l hl
    rw [splitLines] at hl
    by_cases hc : c = '\n'
    · rw [if_pos hc] at hl
      rcases List.mem_cons.mp hl with rfl | hl
      · simp
      · exact ih l hl
    · rw [if_neg hc] at hl
      cases hT : splitLines cs with
      | nil =>
        rw [hT] at hl
        rcases List.mem_singleton.mp hl with rfl
        simp
      | cons t ts =>
        rw [hT] at hl
        rcases List.mem_cons.mp hl with rfl | hl
        · simp
        · exact ih l (hT ▸ List.mem_cons_of_mem _ hl)

theorem splitLines_shape (s : Str) :
    (∀ l ∈ (splitLines s).dropLast, IsLine l) ∧
    (∀ l ∈ splitLines s, '\n' ∉ l.dropLast) := by
  induction s with
  | nil => simp [splitLines]
  | cons c cs ih =>
    rw [splitLines]
    by_cases hc : c = '\n'
    · rw [if_pos hc]
      constructor
      · intro l hl
        cases hT : splitLines cs with
        | nil => rw [hT] at hl; simp at hl
        | cons t ts =>
          rw [hT, List.dropLast_cons₂] at hl
          rcases List.mem_cons.mp hl with rfl | hl
          · exact ⟨[], rfl, by simp⟩
          · exact ih.1 l (hT ▸ hl)
      · intro l hl
        rcases List.mem_cons.mp hl with rfl | hl
        · simp
        · exact ih.2 l hl
    · rw [if_neg hc]
      cases hT : splitLines cs with
      | nil =>
        refine ⟨by simp, ?_⟩
        intro l hl
        rcases List.mem_singleton.mp hl with rfl
        simp
      | cons t ts =>
        have htne : t ≠ [] := splitLines_ne_nil_mem cs t (hT ▸ List.mem_cons_self _ _)
        constructor
        · intro l hl
          cases ts with
          | nil => simp at hl
          | cons y ys =>
            rw [List.dropLast_cons₂] at hl
            rcases List.mem_cons.mp hl with rfl | hl
            · have hiT : IsLine t := by
                apply ih.1
                rw [hT, List.dropLast_cons₂]
                exact List.mem_cons_self _ _
              obtain ⟨m, rfl, hm⟩ := hiT
              exact ⟨c :: m, by simp, by
                intro hmem
                rcases List.mem_cons.mp hmem with h | h
                · exact hc h.symm
                · exact hm h⟩
            · apply ih.1
              rw [hT]
              cases ys with
              | nil => simp at hl
              | cons z zs =>
                rw [List.dropLast_cons₂]
                exact List.mem_cons_of_mem _ hl
        · intro l hl
          rcases List.mem_cons.mp hl with rfl | hl
          · rw [List.dropLast_cons_of_ne_nil htne]
            intro hmem
            rcases List.mem_cons.mp hmem with h | h
            · exact hc h.symm
            · exact ih.2 t (hT ▸ List.mem_cons_self _ _) h
          · exact ih.2 l (hT ▸ List.mem_cons_of_mem _ hl)

theorem splitLines_no_newline {m : Str} (hm : '\n' ∉ m) (hne : m ≠ []) :
    splitLines m = [m] := by
  induction m with
  | nil => exact absurd rfl hne
  | cons c cs ih =>
    have hc : c ≠ '\n' := by
      rintro rfl
      exact hm (List.mem_cons_self _ _)
    rw [splitLines, if_neg hc]
    cases hcs : cs with
    | nil => rw [splitLines]
    | cons d ds =>
      rw [← hcs, ih (fun h => hm (List.mem_cons_of_mem _ h)) (by simp [hcs])]

theorem splitLines_flatten_gen (L : List Str)
    (hinit : ∀ l ∈ L.dropLast, IsLine l)
    (hne : ∀ l ∈ L, l ≠ []) (hint : ∀ l ∈ L, '\n' ∉ l.dropLast) :
    splitLines L.flatten = L := by
  induction L with
  | nil => rfl
  | cons l L ih =>
    cases L with
    | nil =>
      simp only [List.flatten_cons, List.flatten_nil, List.append_nil]
      have hlne : l ≠ [] := hne l (List.mem_cons_self _ _)
      obtain ⟨m, c, hlc⟩ := List.eq_nil_or_concat l |>.resolve_left hlne
      rw [List.concat_eq_append] at hlc
      subst hlc
      have hmint : '\n' ∉ m := by
        have := hint _ (List.mem_cons_self _ _)
        rwa [List.dropLast_concat] at this
      by_cases hc : c = '\n'
      · subst hc
        rw [show m ++ ['\n'] = m ++ '\n' :: ([] : Str) from rfl,
          splitLines_line m hmint]
        rfl
      · rw [splitLines_no_newline ?_ (by simp)]
        intro hmem
        rcases List.mem_append.mp hmem with h | h
        · exact hmint h
        · rcases List.mem_singleton.mp h with rfl
          exact hc rfl
    | cons l2 L2 =>
      have hl : IsLine l := hinit l (by
        rw [List.dropLast_cons₂]
        exact List.mem_cons_self _ _)
      obtain ⟨m, rfl, hm⟩ := hl
      rw [List.flatten_cons, List.append_assoc, List.singleton_append,
        splitLines_line m hm]
      congr 1
      apply ih
      · intro x hx
        apply hinit
        rw [List.dropLast_cons₂]
        exact List.mem_cons_of_mem _ hx
      · exact fun x hx => hne x (List.mem_cons_of_mem _ hx)
      · exact fun x hx => hint x (List.mem_cons_of_mem _ hx)

theorem findParenIdx_eq_length {l : Str} (h : ')' ∉ l) :
    findParenIdx l = l.length := by
  induction l with
  | nil => rfl
  | cons c cs ih =>
    have hc : c ≠ ')' := by
      rintro rfl
      exact h (List.mem_cons_self _ _)
    rw [findParenIdx, if_neg hc, ih (fun hm => h (List.mem_cons_of_mem _ hm))]
    rfl

theorem mem_of_mem_normalizedLibDir {c : Char} {ld : Str}
    (h : c ∈ normalizedLibDir ld) (hc : c ≠ '/') : c ∈ ld := by
  rw [normalizedLibDir] at h
  obtain ⟨d, hd, hfd⟩ := List.mem_map.mp h
  have hdc : d = c := by
    by_cases hb : d = '\\'
    · rw [hb] at hfd
      simp at hfd
      exact absurd hfd.symm hc
    · simpa [hb] using hfd
  subst hdc
  rw [List.mem_reverse] at hd
  have h3 := (List.dropWhile_sublist _).subset hd
  rw [List.mem_reverse] at h3
  exact (List.dropWhile_sublist _).subset h3

theorem newModelPath_clean {ld pn : Str} (hld : ')' ∉ ld ∧ '\n' ∉ ld)
    (hpn : ')' ∉ pn ∧ '\n' ∉ pn) :
    ')' ∉ newModelPath ld pn ∧ '\n' ∉ newModelPath ld pn := by
  constructor
  · intro h
    rw [newModelPath] at h
    simp only [List.mem_append, List.mem_cons] at h
    rcases h with ((h | h) | (h | h)) | h
    · revert h; decide
    · exact hld.1 (mem_of_mem_normalizedLibDir h (by decide))
    · exact absurd h (by decide)
    · exact hpn.1 h
    · revert h; decide
  · intro h
    rw [newModelPath] at h
    simp only [List.mem_append, List.mem_cons] at h
    rcases h with ((h | h) | (h | h)) | h
    · revert h; decide
    · exact hld.2 (mem_of_mem_normalizedLibDir h (by decide))
    · exact absurd h (by decide)
    · exact hpn.2 h
    · revert h; decide

/-- The line a matched no-parenthesis model declaration is rewritten to. -/
def modelLineFor (p : Str) : Str := str "(model \"" ++ p ++ ['"', '\n']

theorem updateModelLine_not_matched {p l : Str}
    (h : (str "(model").isPrefixOf (pyStrip l) = false) :
    updateModelLine p l = l := by
  simp [updateModelLine, h]

theorem updateModelLine_matched {p l : Str}
    (h : (str "(model").isPrefixOf (pyStrip l) = true) (hl : ')' ∉ l) :
    updateModelLine p l = modelLineFor p := by
  rw [updateModelLine, if_pos h, findParenIdx_eq_length hl, List.drop_length]
  simp [modelLineFor]

theorem modelLineFor_concat (p : Str) :
    modelLineFor p = (str "(model \"" ++ p ++ ['"']) ++ ['\n'] := by
  simp [modelLineFor]

theorem modelLineFor_isLine {p : Str} (hp : '\n' ∉ p) : IsLine (modelLineFor p) := by
  refine ⟨str "(model \"" ++ p ++ ['"'], modelLineFor_concat p, ?_⟩
  intro h
  simp only [List.mem_append, List.mem_singleton] at h
  rcases h with (h | h) | h
  · revert h; decide
  · exact hp h
  · exact absurd h (by decide)

theorem modelLineFor_no_paren {p : Str} (hp : ')' ∉ p) : ')' ∉ modelLineFor p := by
  intro h
  simp only [modelLineFor, List.mem_append, List.mem_cons,
    List.mem_singleton] at h
  rcases h with (h | h) | h | h
  · revert h; decide
  · exact hp h
  · exact absurd h (by decide)
  · exact absurd h (by decide)

theorem modelLineFor_ne_nil (p : Str) : modelLineFor p ≠ [] := by
  intro h
  have := congrArg List.length h
  simp [modelLineFor] at this

theorem modelLineFor_matched (p : Str) :
    (str "(model").isPrefixOf (pyStrip (modelLineFor p)) = true := by
  have h1 : pyLStrip (modelLineFor p) = modelLineFor p := by
    rw [show modelLineFor p = '(' :: (str "model \"" ++ p ++ ['"', '\n'])
      from by simp [modelLineFor, show str "(model \"" = '(' :: str "model \""
        from by decide]]
    exact pyLStrip_cons_nonspace '(' (by decide) _
  have h2 : pyStrip (modelLineFor p) = str "(model \"" ++ p ++ ['"'] := by
    rw [pyStrip, h1, modelLineFor_concat, pyRStrip_concat_space '\n' (by decide)]
    rw [show str "(model \"" ++ p ++ ['"'] = (str "(model \"" ++ p) ++ ['"']
      from by simp]
    exact pyRStrip_concat_nonspace '"' (by decide) _
  rw [h2, show str "(model \"" = str "(model" ++ str " \"" from by decide,
    List.append_assoc, List.append_assoc]
  exact isPrefixOf_append_self _ _

theorem updateModelLine_fix {p : Str} (hp : ')' ∉ p) :
    updateModelLine p (modelLineFor p) = modelLineFor p := by
  rw [updateModelLine_matched (modelLineFor_matched p) (modelLineFor_no_paren hp)]

/-- Claim C6, counterexample: the model-reference rewrite is not idempotent on
a footprint whose model declaration fits on one line: each run appends one
more blank line after the rewritten declaration (the rebuilt line keeps the
original text from the first `)` on, including its newline, and then appends
another newline). -/
theorem model_rewrite_counterexample :
    update_model_property_in_footprint (str "lib") (str "P")
        (update_model_property_in_footprint (str "lib") (str "P")
          (str "(model \"a.step\")\n")) ≠
      update_model_property_in_footprint (str "lib") (str "P")
        (str "(model \"a.step\")\n") := by
  decide

/-- Claim C6 (amended): the model-reference rewrite is idempotent on every
footprint content in which no line both starts (after stripping) with
`(model` and contains a `)` — in particular on the usual multi-line model
blocks — given a lib_dir and part name free of `)` and newlines; and for
every content with no model declaration line at all the rewrite returns the
content unchanged (a no-op, not an error). -/
theorem model_rewrite (ld pn content : Str)
    (hld : ')' ∉ ld ∧ '\n' ∉ ld) (hpn : ')' ∉ pn ∧ '\n' ∉ pn)
    (hclean : ∀ l ∈ splitLines content,
      (str "(model").isPrefixOf (pyStrip l) = true → ')' ∉ l) :
    update_model_property_in_footprint ld pn
        (update_model_property_in_footprint ld pn content) =
      update_model_property_in_footprint ld pn content ∧
    ((∀ l ∈ splitLines content,
        (str "(model").isPrefixOf (pyStrip l) = false) →
      update_model_property_in_footprint ld pn content = content) := by
  have hpath := newModelPath_clean hld hpn
  constructor
  · simp only [update_model_property_in_footprint]
    have hround : splitLines ((List.map
        (updateModelLine (newModelPath ld pn)) (splitLines content)).flatten) =
        List.map (updateModelLine (newModelPath ld pn)) (splitLines content) := by
      apply splitLines_flatten_gen
      · rw [← List.map_dropLast]
        intro l' hl'
        obtain ⟨l, hl, rfl⟩ := List.mem_map.mp hl'
        have hmem : l ∈ splitLines content :=
          (List.dropLast_sublist _).subset hl
        cases hm : (str "(model").isPrefixOf (pyStrip l) with
        | false =>
          rw [updateModelLine_not_matched hm]
          exact (splitLines_shape content).1 l hl
        | true =>
          rw [updateModelLine_matched hm (hclean l hmem hm)]
          exact modelLineFor_isLine hpath.2
      · intro l' hl'
        obtain ⟨l, hl, rfl⟩ := List.mem_map.mp hl'
        cases hm : (str "(model").isPrefixOf (pyStrip l) with
        | false =>
          rw [updateModelLine_not_matched hm]
          exact splitLines_ne_nil_mem content l hl
        | true =>
          rw [updateModelLine_matched hm (hclean l hl hm)]
          exact modelLineFor_ne_nil _
      · intro l' hl'
        obtain ⟨l, hl, rfl⟩ := List.mem_map.mp hl'
        cases hm : (str "(model").isPrefixOf (pyStrip l) with
        | false =>
          rw [updateModelLine_not_matched hm]
          exact (splitLines_shape content).2 l hl
        | true =>
          rw [updateModelLine_matched hm (hclean l hl hm), modelLineFor_concat,
            List.dropLast_concat]
          intro h
          simp only [List.mem_append, List.mem_singleton] at h
          rcases h with (h | h) | h
          · revert h; decide
          · exact hpath.2 h
          · exact absurd h (by decide)
    rw [hround]
    apply congrArg List.flatten
    rw [List.map_map]
    apply List.map_congr_left
    intro l hl
    show updateModelLine (newModelPath ld pn)
      (updateModelLine (newModelPath ld pn) l) = updateModelLine _ l
    cases hm : (str "(model").isPrefixOf (pyStrip l) with
    | false => rw [updateModelLine_not_matched hm, updateModelLine_not_matched hm]
    | true =>
      rw [updateModelLine_matched hm (hclean l hl hm), updateModelLine_fix hpath.1]
  · intro hno
    simp only [update_model_property_in_footprint]
    have hmapid : (splitLines content).map
        (updateModelLine (newModelPath ld pn)) = splitLines content := by
      have h1 : (splitLines content).map
          (updateModelLine (newModelPath ld pn)) =
          (splitLines content).map id :=
        List.map_congr_left (fun l hl => updateModelLine_not_matched (hno l hl))
      rw [h1, List.map_id]
    rw [hmapid, flatten_splitLines]

set_option maxRecDepth 4000 in
/-- Witness for the amended C6 theorem on a multi-line model block: applying
the rewrite twice equals applying it once. -/
theorem model_rewrite_witness :
    ((')' ∉ str "lib" ∧ '\n' ∉ str "lib") ∧ (')' ∉ str "P" ∧ '\n' ∉ str "P") ∧
      (∀ l ∈ splitLines (str "  (model \"old.step\"\n    (offset 0)\n"),
        (str "(model").isPrefixOf (pyStrip l) = true → ')' ∉ l)) ∧
    update_model_property_in_footprint (str "lib") (str "P")
        (update_model_property_in_footprint (str "lib") (str "P")
          (str "  (model \"old.step\"\n    (offset 0)\n")) =
      update_model_property_in_footprint (str "lib") (str "P")
        (str "  (model \"old.step\"\n    (offset 0)\n") := by
  refine ⟨⟨by decide, by decide, by decide⟩, ?_⟩
  exact (model_rewrite (str "lib") (str "P")
    (str "  (model \"old.step\"\n    (offset 0)\n")
    ⟨by decide, by decide⟩ ⟨by decide, by decide⟩ (by decide)).1

/-! ## Claim C7 -/

theorem eq_append_of_isPrefixOf {p s : Str} (h : p.isPrefixOf s = true) :
    s = p ++ s.drop p.length := by
  induction p generalizing s with
  | nil => simp
  | cons c cs ih =>
    cases s with
    | nil => simp [List.isPrefixOf] at h
    | cons d ds =>
      simp only [List.isPrefixOf, Bool.and_eq_true, beq_iff_eq] at h
      obtain ⟨rfl, h2⟩ := h
      simpa using ih h2

theorem findCloseQ_some {s : Str} {k : Nat} (h : findCloseQ s = some k) :
    s = s.take k ++ '"' :: ')' :: s.drop (k + 2) := by
  induction s generalizing k with
  | nil => simp [findCloseQ] at h
  | cons c cs ih =>
    rw [findCloseQ] at h
    by_cases h1 : c = '"' ∧ cs.head? = some ')'
    · rw [if_pos h1] at h
      injection h with hk
      subst hk
      obtain ⟨rfl, hh⟩ := h1
      cases cs with
      | nil => simp at hh
      | cons d ds =>
        simp only [List.head?_cons, Option.some.injEq] at hh
        subst hh
        rfl
    · rw [if_neg h1] at h
      by_cases h2 : c = '\n'
      · rw [if_pos h2] at h
        exact absurd h (by simp)
      · rw [if_neg h2] at h
        cases hk : findCloseQ cs with
        | none =>
          rw [hk] at h
          simp at h
        | some k' =>
          rw [hk] at h
          simp only [Option.map_some', Option.some.injEq] at h
          subst h
          have := ih hk
          rw [show k' + 1 + 2 = k' + 3 from rfl]
          rw [List.take_succ_cons, List.drop_succ_cons]
          rw [List.cons_append]
          exact congrArg (c :: ·) this

theorem reSubFootprint_no_match {s : Str} (r : Str)
    (h : findFootprintMatch s = none) : reSubFootprint r s = s := by
  induction s with
  | nil => simp [reSubFootprint]
  | cons c cs ih =>
    rw [findFootprintMatch] at h
    rw [reSubFootprint]
    by_cases h1 : fpPropPre.isPrefixOf (c :: cs) = true
    · rw [if_pos h1]
      rw [if_pos h1] at h
      cases hk : findCloseQ ((c :: cs).drop fpPropPre.length) with
      | some k =>
        rw [hk] at h
        simp at h
      | none =>
        rw [hk] at h
        simp only [Option.map_eq_none'] at h
        show c :: reSubFootprint r cs = c :: cs
        rw [ih h]
    · rw [if_neg h1] at h ⊢
      simp only [Option.map_eq_none'] at h
      rw [ih h]

theorem findFootprintMatch_some {s a v b : Str} (r : Str)
    (h : findFootprintMatch s = some (a, v, b)) :
    s = a ++ fpPropPre ++ v ++ str "\")" ++ b ∧
    reSubFootprint r s = a ++ r ++ reSubFootprint r b := by
  induction s generalizing a with
  | nil => simp [findFootprintMatch] at h
  | cons c cs ih =>
    rw [findFootprintMatch] at h
    rw [reSubFootprint]
    by_cases h1 : fpPropPre.isPrefixOf (c :: cs) = true
    · rw [if_pos h1] at h ⊢
      cases hk : findCloseQ ((c :: cs).drop fpPropPre.length) with
      | some k =>
        rw [hk] at h
        simp only [Option.some.injEq, Prod.mk.injEq] at h
        obtain ⟨rfl, rfl, rfl⟩ := h
        have hdrop : ((c :: cs).drop fpPropPre.length).drop (k + 2) =
            (c :: cs).drop (fpPropPre.length + k + 2) := by
          rw [List.drop_drop,
            show fpPropPre.length + (k + 2) = fpPropPre.length + k + 2
              from by omega]
        constructor
        · have hs : (c :: cs) = fpPropPre ++ (c :: cs).drop fpPropPre.length :=
            eq_append_of_isPrefixOf h1
          rw [← hdrop]
          have hc := findCloseQ_some hk
          calc c :: cs = fpPropPre ++ (c :: cs).drop fpPropPre.length := hs
            _ = fpPropPre ++ (((c :: cs).drop fpPropPre.length).take k ++
                '"' :: ')' :: ((c :: cs).drop fpPropPre.length).drop (k + 2)) := by
                rw [← hc]
            _ = [] ++ fpPropPre ++ ((c :: cs).drop fpPropPre.length).take k ++
                str "\")" ++ ((c :: cs).drop fpPropPre.length).drop (k + 2) := by
                simp [List.append_assoc, show str "\")" = ['"', ')'] from rfl]
        · show r ++ reSubFootprint r ((c :: cs).drop (fpPropPre.length + k + 2)) =
            [] ++ r ++ reSubFootprint r ((c :: cs).drop (fpPropPre.length + k + 2))
          simp
      | none =>
        rw [hk] at h
        cases hm : findFootprintMatch cs with
        | none =>
          rw [hm] at h
          simp at h
        | some p =>
          rw [hm] at h
          simp only [Option.map_some', Option.some.injEq] at h
          obtain ⟨p1, p2, p3⟩ := p
          simp only [Prod.mk.injEq] at h
          obtain ⟨rfl, rfl, rfl⟩ := h
          obtain ⟨ihl, ihr⟩ := ih (a := p1) (by rw [hm])
          constructor
          · rw [show c :: cs = c :: (p1 ++ fpPropPre ++ p2 ++ str "\")" ++ p3)
              from congrArg (c :: ·) ihl]
            simp [List.append_assoc]
          · show c :: reSubFootprint r cs =
              (c :: p1) ++ r ++ reSubFootprint r p3
            rw [ihr]
            simp [List.append_assoc]
    · rw [if_neg h1] at h ⊢
      cases hm : findFootprintMatch cs with
      | none =>
        rw [hm] at h
        simp at h
      | some p =>
        rw [hm] at h
        simp only [Option.map_some', Option.some.injEq] at h
        obtain ⟨p1, p2, p3⟩ := p
        simp only [Prod.mk.injEq] at h
        obtain ⟨rfl, rfl, rfl⟩ := h
        obtain ⟨ihl, ihr⟩ := ih (a := p1) (by rw [hm])
        constructor
        · rw [show c :: cs = c :: (p1 ++ fpPropPre ++ p2 ++ str "\")" ++ p3)
            from congrArg (c :: ·) ihl]
          simp [List.append_assoc]
        · rw [ihr]
          simp [List.append_assoc]

/-- Claim C7: on a symbol-file content containing exactly one occurrence of a
`(property "Footprint" "...")` declaration (a first match decomposition
`a ++ pre ++ v ++ "\")" ++ b` with no further match in `b`), the rewrite
replaces that occurrence exactly once by
`(property "Footprint" "<lib_dir>/<name>/<name>_footprint.kicad_mod")`, and
everything before and after the replaced declaration (`a` and `b`) is
byte-for-byte identical to the input. -/
theorem footprint_rewrite (ld pn content a v b : Str)
    (h1 : findFootprintMatch content = some (a, v, b))
    (h2 : findFootprintMatch b = none) :
    content = a ++ fpPropPre ++ v ++ str "\")" ++ b ∧
    update_footprint_property ld pn content =
      a ++ footprintRepl ld pn ++ b ∧
    footprintRepl ld pn = fpPropPre ++ footprintRefPath ld pn ++ str "\")" := by
  obtain ⟨hl, hr⟩ := findFootprintMatch_some (footprintRepl ld pn) h1
  exact ⟨hl, by rw [update_footprint_property, hr,
    reSubFootprint_no_match _ h2], rfl⟩

/-- Witness for C7 at a concrete input. -/
theorem footprint_rewrite_witness :
    (findFootprintMatch (str "xx(property \"Footprint\" \"old/path\")yy") =
      some (str "xx", str "old/path", str "yy") ∧
     findFootprintMatch (str "yy") = none) ∧
    update_footprint_property (str "lib") (str "P")
        (str "xx(property \"Footprint\" \"old/path\")yy") =
      str "xx" ++ footprintRepl (str "lib") (str "P") ++ str "yy" := by
  refine ⟨⟨by decide, by decide⟩, ?_⟩
  exact (footprint_rewrite (str "lib") (str "P")
    (str "xx(property \"Footprint\" \"old/path\")yy")
    (str "xx") (str "old/path") (str "yy") (by decide) (by decide)).2.1

/-! ## Claim C8 -/

theorem pyJoin_inj_right {x b1 b2 : Str} (hb1 : b1.head? ≠ some '/')
    (hb2 : b2.head? ≠ some '/') (h : pyJoin x b1 = pyJoin x b2) : b1 = b2 := by
  rw [pyJoin, pyJoin, if_neg hb1, if_neg hb2] at h
  by_cases hx : x = [] ∨ x.getLast? = some '/'
  · rw [if_pos hx, if_pos hx] at h
    exact List.append_cancel_left h
  · rw [if_neg hx, if_neg hx] at h
    have h2 := List.append_cancel_left h
    injection h2

theorem destKey_inj (ld pn : Str) {k k' : FKind} (hk : k ≠ .other)
    (hk' : k' ≠ .other)
    (h : destFilePath ld pn (canonicalFileName k) =
      destFilePath ld pn (canonicalFileName k')) : k = k' := by
  cases k <;> cases k' <;>
    first
    | rfl
    | exact absurd rfl hk
    | exact absurd rfl hk'
    | exact absurd (pyJoin_inj_right (by decide) (by decide) h) (by decide)

theorem process_cons_other (ld pn d fn : Str) (fs dest0 : List (Str × Str))
    (hcf : classifyFile fn = .other) :
    process_generated_files ld pn dest0 ((d, fn) :: fs) =
      ((process_generated_files ld pn dest0 fs).1,
        (d, fn) :: (process_generated_files ld pn dest0 fs).2) := by
  rw [process_generated_files, hcf]

theorem process_cons_rec (ld pn d fn : Str) (fs dest0 : List (Str × Str))
    (hk : classifyFile fn ≠ .other) :
    process_generated_files ld pn dest0 ((d, fn) :: fs) =
      process_generated_files ld pn
        (moveInto dest0
          (destFilePath ld pn (canonicalFileName (classifyFile fn)))
          (pyJoin d fn)) fs := by
  cases hc : classifyFile fn with
  | other => exact absurd hc hk
  | model => rw [process_generated_files, hc]
  | footprint => rw [process_generated_files, hc]
  | symbol => rw [process_generated_files, hc]

theorem placedFile_rec {ld pn : Str} {p : Str × Str}
    (h : classifyFile p.2 ≠ .other) :
    (match classifyFile p.2 with
     | .other => none
     | k => some (destFilePath ld pn (canonicalFileName k), pyJoin p.1 p.2)) =
    some (destFilePath ld pn (canonicalFileName (classifyFile p.2)),
      pyJoin p.1 p.2) := by
  cases hc : classifyFile p.2 with
  | other => exact absurd hc h
  | model => rfl
  | footprint => rfl
  | symbol => rfl

theorem filter_length_cons_le {α : Type} (pr : α → Bool) (f : α) (fs : List α) :
    (fs.filter pr).length ≤ ((f :: fs).filter pr).length := by
  rw [List.filter_cons]
  split
  · simp [Nat.le_succ]
  · simp

theorem process_gen (ld pn : Str) (files : List (Str × Str)) :
    ∀ dest0 : List (Str × Str),
    (∀ k : FKind, k ≠ .other →
      (files.filter (fun p => decide (classifyFile p.2 = k))).length ≤ 1) →
    (∀ p ∈ files, classifyFile p.2 ≠ .other → ∀ q ∈ dest0,
      q.1 ≠ destFilePath ld pn (canonicalFileName (classifyFile p.2))) →
    process_generated_files ld pn dest0 files =
      (dest0 ++ files.filterMap (fun p =>
        match classifyFile p.2 with
        | .other => none
        | k => some (destFilePath ld pn (canonicalFileName k), pyJoin p.1 p.2)),
       files.filter (fun p => decide (classifyFile p.2 = .other))) := by
  induction files with
  | nil =>
    intro dest0 _ _
    simp [process_generated_files]
  | cons f fs ih =>
    intro dest0 hcount hdisj
    obtain ⟨d, fn⟩ := f
    by_cases hother : classifyFile fn = .other
    · rw [process_cons_other ld pn d fn fs dest0 hother]
      rw [ih dest0
        (fun k hk => le_trans (filter_length_cons_le _ (d, fn) fs) (hcount k hk))
        (fun p hp hpo q hq => hdisj p (List.mem_cons_of_mem _ hp) hpo q hq)]
      rw [List.filterMap_cons, List.filter_cons]
      simp only [hother]
      rfl
    · rw [process_cons_rec ld pn d fn fs dest0 hother]
      have hkey : ∀ q ∈ dest0,
          q.1 ≠ destFilePath ld pn (canonicalFileName (classifyFile fn)) :=
        fun q hq => hdisj (d, fn) (List.mem_cons_self _ _) hother q hq
      have hmove : moveInto dest0
          (destFilePath ld pn (canonicalFileName (classifyFile fn)))
          (pyJoin d fn) =
          dest0 ++ [(destFilePath ld pn (canonicalFileName (classifyFile fn)),
            pyJoin d fn)] := by
        rw [moveInto]
        congr 1
        apply List.filter_eq_self.mpr
        intro q hq
        simpa using hkey q hq
      have hfzero : (fs.filter (fun p =>
          decide (classifyFile p.2 = classifyFile fn))).length = 0 := by
        have h1 := hcount (classifyFile fn) hother
        rw [List.filter_cons_of_pos (by simp)] at h1
        simp only [List.length_cons] at h1
        omega
      rw [hmove, ih _
        (fun k hk => le_trans (filter_length_cons_le _ (d, fn) fs) (hcount k hk))
        ?hdisj2]
      case hdisj2 =>
        intro p hp hpo q hq
        rcases List.mem_append.mp hq with hq | hq
        · exact hdisj p (List.mem_cons_of_mem _ hp) hpo q hq
        · rcases List.mem_singleton.mp hq with rfl
          intro heq
          have heq' : destFilePath ld pn (canonicalFileName (classifyFile fn)) =
              destFilePath ld pn (canonicalFileName (classifyFile p.2)) := heq
          have hkk : classifyFile p.2 = classifyFile fn :=
            (destKey_inj ld pn hother hpo heq').symm
          have hmem : p ∈ fs.filter (fun p =>
              decide (classifyFile p.2 = classifyFile fn)) :=
            List.mem_filter.mpr ⟨hp, by simp [hkk]⟩
          rw [List.length_eq_zero.mp hfzero] at hmem
          simp at hmem
      rw [List.filterMap_cons, List.filter_cons,
        placedFile_rec (p := (d, fn)) hother]
      rw [if_neg (by simpa using hother)]
      simp [List.append_assoc]

/-- Claim C8: for a staging tree (modelled as the `(dirpath, filename)` pairs
an `os.walk` visits, in order) containing at most one file per recognized
extension, `process_generated_files` moves exactly the recognized files into
`os.path.join(lib_dir, part)` under their fixed canonical filenames
(`model.step`, `footprint.kicad_mod`, `symbol.kicad_sym`), moves nothing
else, and leaves every file with an unrecognized extension in place in the
staging tree. -/
theorem classifier_places_files (ld pn : Str) (files : List (Str × Str))
    (hcount : ∀ k : FKind, k ≠ .other →
      (files.filter (fun p => decide (classifyFile p.2 = k))).length ≤ 1) :
    process_generated_files ld pn [] files =
      (files.filterMap (fun p =>
        match classifyFile p.2 with
        | .other => none
        | k => some (destFilePath ld pn (canonicalFileName k), pyJoin p.1 p.2)),
       files.filter (fun p => decide (classifyFile p.2 = .other))) := by
  have h := process_gen ld pn files [] hcount (by
    intro p _ _ q hq
    simp at hq)
  simpa using h

/-- Witness for C8: a staging tree with one file of each recognized extension
plus a text file: the three recognized files land under their canonical
names, the text file stays. -/
theorem classifier_places_files_witness :
    (∀ k : FKind, k ≠ .other →
      (([(str "tmp", str "a.step"), (str "tmp/sub", str "b.kicad_mod"),
        (str "tmp", str "note.txt"), (str "tmp/symbol", str "c.kicad_sym")]
          : List (Str × Str)).filter
        (fun p => decide (classifyFile p.2 = k))).length ≤ 1) ∧
    process_generated_files (str "lib") (str "P") []
      [(str "tmp", str "a.step"), (str "tmp/sub", str "b.kicad_mod"),
       (str "tmp", str "note.txt"), (str "tmp/symbol", str "c.kicad_sym")] =
      ([(str "lib/P/model.step", str "tmp/a.step"),
        (str "lib/P/footprint.kicad_mod", str "tmp/sub/b.kicad_mod"),
        (str "lib/P/symbol.kicad_sym", str "tmp/symbol/c.kicad_sym")],
       [(str "tmp", str "note.txt")]) := by
  constructor
  · intro k hk
    cases k
    · decide
    · decide
    · decide
    · exact absurd rfl hk
  · rw [classifier_places_files (str "lib") (str "P") _ (by
      intro k hk
      cases k
      · decide
      · decide
      · decide
      · exact absurd rfl hk)]
    decide

end JlcTester
